import Mathlib

/-!
Verification development for the EPUB structural parsing pipeline
(`src/utils/epubParser.ts`, `src/utils/epubParserService.ts`,
`src/utils/enhancedEpubParser.ts`).

Strings are modelled as `List Char` (UTF-16 code units of the source are
identified with characters; all inputs of interest are BMP text, where the
two coincide).  The JavaScript regular-expression pipeline of the source is
embedded by explicit scanning functions: each `String.replace(/re/g, r)`
becomes a left-to-right scan that, at every position, either fires the
translated matcher of `re` (consuming the match and emitting the
replacement) or copies one character and moves on — exactly the semantics
of a global regex replace for the patterns used here (none of which can
match the empty string).
-/

set_option maxRecDepth 100000

deriving instance DecidableEq for Except

namespace Epub

abbrev Str := List Char

/-- The JavaScript whitespace class (as used by `String.prototype.trim` and
the regex class `\s`): ASCII whitespace, NBSP, BOM and the Unicode line and
paragraph separators. -/
def wsJs (c : Char) : Bool :=
  c = ' ' || c = '\t' || c = '\n' || c = '\r' ||
  c = Char.ofNat 11 || c = Char.ofNat 12 || c = Char.ofNat 160 ||
  c = Char.ofNat 0xfeff || c = Char.ofNat 0x2028 || c = Char.ofNat 0x2029

/-- The regex class `[ \t]` (a literal space or tab). -/
def isSpTab (c : Char) : Bool := c = ' ' || c = '\t'

/-- ASCII lower-casing, as performed by `String.prototype.toLowerCase` and
by case-insensitive regex matching on the characters that occur here. -/
def lowerCh (c : Char) : Char :=
  if 65 ≤ c.toNat ∧ c.toNat ≤ 90 then Char.ofNat (c.toNat + 32) else c

def lowerStr (s : Str) : Str := s.map lowerCh

/-- Case-insensitive character comparison (for `/i` regex flags). -/
def chEqCI (a b : Char) : Bool := lowerCh a = lowerCh b

/-- `String.prototype.trim`, left half: drop leading JS whitespace. -/
def trimL (s : Str) : Str := s.dropWhile wsJs

/-- `String.prototype.trim`, right half: drop trailing JS whitespace. -/
def trimR (s : Str) : Str := (s.reverse.dropWhile wsJs).reverse

/-- `String.prototype.trim`. -/
def jsTrim (s : Str) : Str := trimR (trimL s)

/-- Case-sensitive literal prefix test (`String.prototype.startsWith`). -/
def hasPref : Str → Str → Bool
  | [], _ => true
  | _ :: _, [] => false
  | p :: ps, c :: cs => p = c && hasPref ps cs

/-- If `p` is a (case-sensitive) literal prefix of `s`, return the rest. -/
def dropPref : Str → Str → Option Str
  | [], s => some s
  | _ :: _, [] => none
  | p :: ps, c :: cs => if p = c then dropPref ps cs else none

/-- If `p` is a case-insensitive literal prefix of `s`, return the rest. -/
def dropPrefCI : Str → Str → Option Str
  | [], s => some s
  | _ :: _, [] => none
  | p :: ps, c :: cs => if chEqCI p c then dropPrefCI ps cs else none

/-- Case-sensitive substring test (`String.prototype.includes`). -/
def hasSub (p : Str) : Str → Bool
  | [] => hasPref p []
  | c :: cs => hasPref p (c :: cs) || hasSub p cs

/-- Case-insensitive substring test (for `/i` regex searches). -/
def hasSubCI (p : Str) (s : Str) : Bool := hasSub (lowerStr p) (lowerStr s)

/-- Case-sensitive suffix test (`String.prototype.endsWith`). -/
def hasSuf (p s : Str) : Bool := hasPref p.reverse s.reverse

/-- Case-insensitive suffix test. -/
def hasSufCI (p s : Str) : Bool := hasSuf (lowerStr p) (lowerStr s)

/-- A position matcher: given the rest of the input, either fail, or
succeed with a result (captures / replacement text) and the input that
remains after the match.  All matchers used below consume at least one
character whenever they succeed. -/
abbrev PMatch (α : Type) := Str → Option (α × Str)

/-- Restrict a matcher to positions whose first character is `c0`
(every regex used here starts with a fixed literal character, so this is a
semantics-preserving guard). -/
def guardCh (c0 : Char) (m : PMatch α) : PMatch α := fun s =>
  match s with
  | c :: r => if c = c0 then m (c :: r) else none
  | [] => none

/-- Fuelled global replace: scan left to right; at each position either
fire the matcher (emit its replacement, resume after the match) or copy one
character.  `fuel ≥ s.length` suffices because every successful match
consumes at least one character. -/
def scanRepl (m : PMatch Str) : Nat → Str → Str
  | 0, s => s
  | _ + 1, [] => []
  | fuel + 1, c :: rest =>
    match m (c :: rest) with
    | some (repl, rest2) => repl ++ scanRepl m fuel rest2
    | none => c :: scanRepl m fuel rest

/-- `String.prototype.replace` with a `/g` regex, for matcher `m`. -/
def replAll (m : PMatch Str) (s : Str) : Str := scanRepl m s.length s

/-- Fuelled first-match search (`String.prototype.match` without `/g`):
return the captures of the leftmost match. -/
def scanFirst (m : PMatch α) : Nat → Str → Option α
  | 0, _ => none
  | _ + 1, [] => none
  | fuel + 1, c :: rest =>
    match m (c :: rest) with
    | some (a, _) => some a
    | none => scanFirst m fuel rest

/-- Leftmost match of `m` in `s` (captures only). -/
def findFirst (m : PMatch α) (s : Str) : Option α := scanFirst m s.length s

/-- Fuelled global match (`String.prototype.match` with `/g`): the list of
results of successive non-overlapping leftmost matches. -/
def scanAll (m : PMatch α) : Nat → Str → List α
  | 0, _ => []
  | _ + 1, [] => []
  | fuel + 1, c :: rest =>
    match m (c :: rest) with
    | some (a, rest2) => a :: scanAll m fuel rest2
    | none => scanAll m fuel rest

/-- All successive matches of `m` in `s`. -/
def findAll (m : PMatch α) (s : Str) : List α := scanAll m s.length s

/-- Matcher for a case-sensitive literal, producing a fixed replacement. -/
def litRepl (pat repl : Str) : PMatch Str := fun s =>
  (dropPref pat s).map fun r => (repl, r)

/-- Skip the regex fragment `[^>]*>`: consume up to and including the next
`>`; fail if there is none. -/
def afterGt (s : Str) : Option Str :=
  match s.dropWhile (· ≠ '>') with
  | '>' :: r => some r
  | _ => none

/-- Lazy search (`[\s\S]*?pat`): consume up to and including the first
case-insensitive occurrence of `pat`; fail if there is none. -/
def findCloseCI (pat : Str) : Str → Option Str
  | [] => none
  | c :: rest =>
    match dropPrefCI pat (c :: rest) with
    | some r => some r
    | none => findCloseCI pat rest

/-- Matcher for `<w[^>]*>[\s\S]*?<\/w>` (with `/gi`), removing the whole
block — used for the `<style>` and `<script>` stages. -/
def mBlockRem (w : Str) : PMatch Str := guardCh '<' fun s =>
  (dropPrefCI ('<' :: w) s).bind fun r1 =>
  (afterGt r1).bind fun r2 =>
  (findCloseCI ('<' :: '/' :: (w ++ ['>'])) r2).map fun r3 => ([], r3)

/-- Matcher for `<h([1-6])[^>]*>` (with `/gi`), replaced by a newline, the
captured number of `#` marks and a space. -/
def mHeadOpen : PMatch Str := guardCh '<' fun s =>
  match s with
  | _ :: c1 :: d :: r =>
    if chEqCI 'h' c1 && ('1' ≤ d && d ≤ '6') then
      (afterGt r).map fun r2 =>
        ('\n' :: (List.replicate (d.toNat - 48) '#' ++ [' ']), r2)
    else none
  | _ => none

/-- Matcher for `<\/h[1-6]>` (with `/gi`), replaced by two newlines. -/
def mHeadClose : PMatch Str := guardCh '<' fun s =>
  match s with
  | _ :: '/' :: c1 :: d :: '>' :: r =>
    if chEqCI 'h' c1 && ('1' ≤ d && d ≤ '6') then some ('\n' :: ['\n'], r)
    else none
  | _ => none

/-- Matcher for `<w[^>]*>` (with `/gi`) and a fixed replacement. -/
def mOpenTag (w repl : Str) : PMatch Str := guardCh '<' fun s =>
  (dropPrefCI ('<' :: w) s).bind fun r1 =>
  (afterGt r1).map fun r2 => (repl, r2)

/-- Matcher for `<\/w>` (with `/gi`) and a fixed replacement. -/
def mCloseTag (w repl : Str) : PMatch Str := guardCh '<' fun s =>
  (dropPrefCI ('<' :: '/' :: (w ++ ['>'])) s).map fun r => (repl, r)

/-- Matcher for `<br\s*\/?>` (with `/gi`), replaced by a newline. -/
def mBr : PMatch Str := guardCh '<' fun s =>
  (dropPrefCI ('<' :: 'b' :: ['r']) s).bind fun r1 =>
    match r1.dropWhile wsJs with
    | '/' :: '>' :: r2 => some ('\n' :: [], r2)
    | '>' :: r2 => some ('\n' :: [], r2)
    | _ => none

/-- Matcher for `<div[^>]*page-break[^>]*>` (with `/gi`): a `div` open tag
whose attribute span contains `page-break`, replaced by a page-break
marker line. -/
def mPageBreakDiv : PMatch Str := guardCh '<' fun s =>
  (dropPrefCI ('<' :: "div".data) s).bind fun r1 =>
    match r1.dropWhile (· ≠ '>') with
    | '>' :: r2 =>
      if hasSubCI "page-break".data (r1.takeWhile (· ≠ '>')) then
        some ("\n[PAGE BREAK]\n".data, r2)
      else none
    | _ => none

/-- Matcher for `<[^>]+>` (with `/g`), replaced by a single space — the
final tag-stripping stage. -/
def mAnyTag : PMatch Str := guardCh '<' fun s =>
  match s with
  | _ :: r =>
    match r.dropWhile (· ≠ '>') with
    | '>' :: r2 => if (r.takeWhile (· ≠ '>')).isEmpty then none else some ([' '], r2)
    | _ => none
  | [] => none

/-- Stage: remove `<w …>…</w>` blocks. -/
def stRemBlock (w : Str) (s : Str) : Str := replAll (mBlockRem w) s

/-- Stage: heading open tags to `#` marker lines. -/
def stHeadOpen (s : Str) : Str := replAll mHeadOpen s

/-- Stage: heading close tags to a blank line. -/
def stHeadClose (s : Str) : Str := replAll mHeadClose s

/-- Stage: `<w …>` open tags to a fixed replacement. -/
def stOpen (w repl : Str) (s : Str) : Str := replAll (mOpenTag w repl) s

/-- Stage: `</w>` close tags to a fixed replacement. -/
def stClose (w repl : Str) (s : Str) : Str := replAll (mCloseTag w repl) s

/-- Stage: `<br/>` to a newline. -/
def stBr (s : Str) : Str := replAll mBr s

/-- Stage: page-break `div` tags to a `[PAGE BREAK]` marker. -/
def stPB (s : Str) : Str := replAll mPageBreakDiv s

/-- Stage: strip every remaining tag to a space. -/
def stStrip (s : Str) : Str := replAll mAnyTag s

/-- Stage: decode one literal HTML entity (`/g`, case-sensitive). -/
def stEnt (pat repl : Str) (s : Str) : Str := replAll (guardCh '&' (litRepl pat repl)) s

/-- The apostrophe character (decoded from the numeric entity 39). -/
def apos : Char := Char.ofNat 39

/-- The typographic characters of the fixed entity table. -/
def lq : Char := Char.ofNat 0x201c
def rq : Char := Char.ofNat 0x201d
def lsq : Char := Char.ofNat 0x2018
def rsq : Char := Char.ofNat 0x2019
def ndash : Char := Char.ofNat 0x2013
def mdash : Char := Char.ofNat 0x2014
def hellip : Char := Char.ofNat 0x2026

/-- The shared 12-entry entity-decoding chain (`&nbsp;` … `&#8212;`), in
source order. -/
def ents12 (s : Str) : Str :=
  let s := stEnt "&nbsp;".data [' '] s
  let s := stEnt "&amp;".data ['&'] s
  let s := stEnt "&lt;".data ['<'] s
  let s := stEnt "&gt;".data ['>'] s
  let s := stEnt "&quot;".data ['"'] s
  let s := stEnt "&#39;".data [apos] s
  let s := stEnt "&#8220;".data [lq] s
  let s := stEnt "&#8221;".data [rq] s
  let s := stEnt "&#8216;".data [lsq] s
  let s := stEnt "&#8217;".data [rsq] s
  let s := stEnt "&#8211;".data [ndash] s
  stEnt "&#8212;".data [mdash] s

/-- State machine for `/[ \t]+/g → " "`: the flag records whether we are
inside a space/tab run whose single replacement space was already
emitted.  Replacing each maximal run by one space is equivalent to this
character-at-a-time scan. -/
def ws1go : Bool → Str → Str
  | _, [] => []
  | inRun, c :: rest =>
    if isSpTab c then
      if inRun then ws1go true rest else ' ' :: ws1go true rest
    else c :: ws1go false rest

/-- `/[ \t]+/g → " "`: each maximal space/tab run becomes one space. -/
def wsStage1 (s : Str) : Str := ws1go false s

/-- State machine for `/\n[ \t]+/g → "\n"`: the flag records whether the
previously emitted character was a newline (or we are inside a space/tab
run that directly follows one, and is therefore dropped). -/
def ws2go : Bool → Str → Str
  | _, [] => []
  | afterNl, c :: rest =>
    if afterNl && isSpTab c then ws2go true rest
    else if c = '\n' then '\n' :: ws2go true rest
    else c :: ws2go false rest

/-- `/\n[ \t]+/g → "\n"`: drop a space/tab run right after a newline. -/
def wsStage2 (s : Str) : Str := ws2go false s

/-- State machine for `/[ \t]+\n/g → "\n"`: `pend` buffers the current
space/tab run (in reverse order); the run is dropped if the next character
is a newline and emitted verbatim otherwise. -/
def ws3go : Str → Str → Str
  | pend, [] => pend.reverse
  | pend, c :: rest =>
    if isSpTab c then ws3go (c :: pend) rest
    else if c = '\n' then '\n' :: ws3go [] rest
    else pend.reverse ++ c :: ws3go [] rest

/-- `/[ \t]+\n/g → "\n"`: drop a space/tab run right before a newline. -/
def wsStage3 (s : Str) : Str := ws3go [] s

/-- State machine for `/\n{3,}/g → "\n\n"`: `n` counts the pending run of
consecutive newlines; a run of three or more is emitted as exactly two. -/
def ws4go : Nat → Str → Str
  | n, [] => List.replicate (min n 2) '\n'
  | n, c :: rest =>
    if c = '\n' then ws4go (n + 1) rest
    else List.replicate (min n 2) '\n' ++ c :: ws4go 0 rest

/-- `/\n{3,}/g → "\n\n"`: cap each newline run of three or more at two. -/
def wsStage4 (s : Str) : Str := ws4go 0 s

/-- The shared trailing whitespace-cleanup chain of all three converters:
collapse space/tab runs, drop them around newlines, cap newline runs at
two, and trim. -/
def wsClean (s : Str) : Str := jsTrim (wsStage4 (wsStage3 (wsStage2 (wsStage1 s))))

/-- The shared tag-conversion chain of `EPUBParserService.htmlToText` and of
the spine-phase converter of `epubParser.ts` (style/script removal, heading
markers, paragraph/div/blockquote/list/line-break conversion, page-break
marker, tag stripping), in source order. -/
def tagStagesFull (s : Str) : Str :=
  let s := stRemBlock "style".data s
  let s := stRemBlock "script".data s
  let s := stHeadOpen s
  let s := stHeadClose s
  let s := stOpen "p".data "\n".data s
  let s := stClose "p".data "\n\n".data s
  let s := stOpen "div".data "\n".data s
  let s := stClose "div".data "\n".data s
  let s := stOpen "blockquote".data "\n> ".data s
  let s := stClose "blockquote".data "\n\n".data s
  let s := stOpen "ul".data "\n".data s
  let s := stClose "ul".data "\n".data s
  let s := stOpen "ol".data "\n".data s
  let s := stClose "ol".data "\n".data s
  let s := stOpen "li".data "• ".data s
  let s := stClose "li".data "\n".data s
  let s := stBr s
  stStrip (stPB s)

/-- `EPUBParserService.htmlToText` (epubParserService.ts, lines 275–332). -/
def htmlToText (s : Str) : Str :=
  wsClean (ents12 (tagStagesFull s))

/-- The spine-phase HTML→text converter of `parseEPUB` (epubParser.ts,
lines 91–145): identical to `htmlToText` except that it also decodes
`&#8230;` to an ellipsis. -/
def spineConvert (s : Str) : Str :=
  wsClean (stEnt "&#8230;".data [hellip] (ents12 (tagStagesFull s)))

/-- The fallback-phase HTML→text converter of `parseEPUB` (epubParser.ts,
lines 192–225): like the spine converter but with no `ul`/`ol` handling and
no `&#8230;` entry. -/
def fallbackConvert (s : Str) : Str :=
  let s := stRemBlock "style".data s
  let s := stRemBlock "script".data s
  let s := stHeadOpen s
  let s := stHeadClose s
  let s := stOpen "p".data "\n".data s
  let s := stClose "p".data "\n\n".data s
  let s := stOpen "div".data "\n".data s
  let s := stClose "div".data "\n".data s
  let s := stOpen "blockquote".data "\n> ".data s
  let s := stClose "blockquote".data "\n\n".data s
  let s := stOpen "li".data "• ".data s
  let s := stClose "li".data "\n".data s
  let s := stBr s
  let s := stPB s
  let s := stStrip s
  wsClean (ents12 s)

/-! ## Structured element extraction (enhancedEpubParser.ts) -/

/-- State machine for `/\s+/g → " "` (`createElementFromTag`): collapse
every run of JS whitespace to a single space. -/
def collWsGo : Bool → Str → Str
  | _, [] => []
  | inRun, c :: rest =>
    if wsJs c then
      if inRun then collWsGo true rest else ' ' :: collWsGo true rest
    else c :: collWsGo false rest

/-- `/\s+/g → " "`. -/
def collapseWs (s : Str) : Str := collWsGo false s

/-- The leading six entity decodes of `createElementFromTag`
(`&nbsp;` … `&#39;`), in source order. -/
def ents6 (s : Str) : Str :=
  let s := stEnt "&nbsp;".data [' '] s
  let s := stEnt "&amp;".data ['&'] s
  let s := stEnt "&lt;".data ['<'] s
  let s := stEnt "&gt;".data ['>'] s
  let s := stEnt "&quot;".data ['"'] s
  stEnt "&#39;".data [apos] s

/-- The element variants of the `EPUBElement.type` union.  (`divE` stands
for the source's `'div'` variant.) -/
inductive EKind where
  | heading | paragraph | blockquote | list | listItem
  | pageBreak | footnote | image | divE
deriving DecidableEq, Repr

/-- An `EPUBElement` as constructed by `parseHTMLElements` /
`createElementFromTag`: only the `type`, `level` and (string) `content`
fields are ever set on this code path, so only those are modelled.
A `level` of `none` stands for JavaScript `undefined`/`NaN`. -/
structure PElem where
  kind : EKind
  level : Option Nat := none
  content : Str
deriving DecidableEq, Repr

/-- `createElementFromTag` (enhancedEpubParser.ts, lines 480–506): strip
tags to spaces, decode six entities, collapse whitespace, trim; drop the
element if nothing remains, otherwise build it from the tag name. -/
def createElementFromTag (tagName : Str) (content : Str) : Option PElem :=
  let clean := jsTrim (collapseWs (ents6 (stStrip content)))
  if clean = [] then none
  else if tagName = "h1".data then some ⟨.heading, some 1, clean⟩
  else if tagName = "h2".data then some ⟨.heading, some 2, clean⟩
  else if tagName = "h3".data then some ⟨.heading, some 3, clean⟩
  else if tagName = "h4".data then some ⟨.heading, some 4, clean⟩
  else if tagName = "h5".data then some ⟨.heading, some 5, clean⟩
  else if tagName = "h6".data then some ⟨.heading, some 6, clean⟩
  else if tagName = "p".data then some ⟨.paragraph, none, clean⟩
  else if tagName = "div".data then some ⟨.divE, none, clean⟩
  else if tagName = "blockquote".data then some ⟨.blockquote, none, clean⟩
  else if tagName = "li".data then some ⟨.listItem, none, clean⟩
  else some ⟨.paragraph, none, clean⟩

/-- `parseInt(tagName[1])` of the heading branch: the second character of
the tag name as a digit, `none` for `NaN`/`undefined`. -/
def levelOfName : Str → Option Nat
  | _ :: d :: _ => if '0' ≤ d ∧ d ≤ '9' then some (d.toNat - 48) else none
  | _ => none

/-- Body of the test `^<\/?[^>]+>$` after the leading `<` (and optional
`/`): one or more non-`>` characters followed by a final `>`. -/
def fullTagBody (r : Str) : Bool :=
  match r.dropWhile (· ≠ '>') with
  | ['>'] => !(r.takeWhile (· ≠ '>')).isEmpty
  | _ => false

/-- The test `part.match(/^<\/?[^>]+>$/)`: is the whole part one tag?
(The optional `/` is greedy, with regex backtracking.) -/
def isFullTag : Str → Bool
  | '<' :: '/' :: r => fullTagBody r || fullTagBody ('/' :: r)
  | '<' :: r => fullTagBody r
  | _ => false

/-- The fragment `[^>\s]+`: a non-empty run of characters that are neither
`>` nor JS whitespace. -/
def tagNameRun (r : Str) : Option Str :=
  let nm := r.takeWhile fun c => c ≠ '>' && !wsJs c
  if nm.isEmpty then none else some nm

/-- `part.match(/^<\/?([^>\s]+)/)`: the captured tag name (the optional
`/` is greedy, with regex backtracking). -/
def tagNameOf : Str → Option Str
  | '<' :: '/' :: r => tagNameRun r <|> tagNameRun ('/' :: r)
  | '<' :: r => tagNameRun r
  | _ => none

/-- The alternation `(h[1-6]|p|div|blockquote|ul|ol|li|br)` of the block
pattern, case-insensitively, returning the matched name as written.  No
alternative is a prefix of another that can match the same input, so
first-match is exact. -/
def altTag (s : Str) : Option (Str × Str) :=
  match s with
  | c1 :: d :: r =>
    if chEqCI 'h' c1 && ('1' ≤ d && d ≤ '6') then some ([c1, d], r)
    else
      (dropPrefCI "p".data s).map (fun r => (s.take 1, r)) <|>
      (dropPrefCI "div".data s).map (fun r => (s.take 3, r)) <|>
      (dropPrefCI "blockquote".data s).map (fun r => (s.take 10, r)) <|>
      (dropPrefCI "ul".data s).map (fun r => (s.take 2, r)) <|>
      (dropPrefCI "ol".data s).map (fun r => (s.take 2, r)) <|>
      (dropPrefCI "li".data s).map (fun r => (s.take 2, r)) <|>
      (dropPrefCI "br".data s).map (fun r => (s.take 2, r))
  | _ =>
    (dropPrefCI "p".data s).map (fun r => (s.take 1, r)) <|>
    (dropPrefCI "li".data s).map (fun r => (s.take 2, r)) <|>
    (dropPrefCI "ol".data s).map (fun r => (s.take 2, r)) <|>
    (dropPrefCI "ul".data s).map (fun r => (s.take 2, r)) <|>
    (dropPrefCI "br".data s).map (fun r => (s.take 2, r))

/-- Matcher for the split pattern
`(<\/?(h[1-6]|p|div|blockquote|ul|ol|li|br)[^>]*>)` (with `/gi`): returns
the whole matched tag (capture 1) and the matched name (capture 2). -/
def mBlockTag : PMatch (Str × Str) := guardCh '<' fun s =>
  match s with
  | _ :: r0 =>
    let slash := r0.head? = some '/'
    let r1 := if slash then r0.tail else r0
    (altTag r1).bind fun (nm, r2) =>
      match r2.dropWhile (· ≠ '>') with
      | '>' :: r3 =>
        let span := r2.takeWhile (· ≠ '>')
        let tag := '<' :: (if slash then '/' :: (nm ++ span ++ ['>'])
                           else nm ++ span ++ ['>'])
        some ((tag, nm), r3)
      | _ => none
  | [] => none

/-- Fuelled worker for `content.split(blockPattern)`: JavaScript `split`
with a separator regex that has capturing groups splices every group into
the result, so each match contributes the text before it, the whole tag
(group 1) and the tag name (group 2). -/
def splitGo : Nat → Str → Str → List Str
  | 0, acc, s => [acc.reverse ++ s]
  | f + 1, acc, s =>
    match mBlockTag s with
    | some ((tag, nm), rest) => acc.reverse :: tag :: nm :: splitGo f [] rest
    | none =>
      match s with
      | [] => [acc.reverse]
      | c :: r => splitGo f (c :: acc) r

/-- `content.split(/(<\/?(h[1-6]|p|div|blockquote|ul|ol|li|br)[^>]*>)/gi)`. -/
def splitBlocks (s : Str) : List Str := splitGo (s.length + 1) [] s

/-- The part-processing loop of `parseHTMLElements` (lines 425–475):
`cur` is `currentElement`, `inList` the (write-only) list flag, `acc` the
elements accumulated so far. -/
def elemsGo : List Str → Str → Bool → List PElem → List PElem
  | [], cur, _, acc =>
    if jsTrim cur ≠ [] then acc ++ [⟨.paragraph, none, jsTrim cur⟩] else acc
  | part0 :: parts, cur, inList, acc =>
    let part := jsTrim part0
    if part = [] then elemsGo parts cur inList acc
    else if isFullTag part then
      match tagNameOf part with
      | none => elemsGo parts cur inList acc
      | some nmRaw =>
        let nm := lowerStr nmRaw
        if hasPref "</".data part then
          let acc2 :=
            if jsTrim cur ≠ [] then
              match createElementFromTag nm cur with
              | some e => acc ++ [e]
              | none => acc
            else acc
          let inList2 := if nm = "ul".data ∨ nm = "ol".data then false else inList
          elemsGo parts [] inList2 acc2
        else
          if nm = "ul".data ∨ nm = "ol".data then elemsGo parts cur true acc
          else if nm = "br".data then
            elemsGo parts cur inList (acc ++ [⟨.paragraph, none, []⟩])
          else if nm.head? = some 'h' then
            if jsTrim cur ≠ [] then
              elemsGo parts [] inList (acc ++ [⟨.heading, levelOfName nm, jsTrim cur⟩])
            else elemsGo parts cur inList acc
          else elemsGo parts cur inList acc
    else elemsGo parts (cur ++ part ++ [' ']) inList acc

/-- Fuelled search for the last case-insensitive occurrence of `pat`:
returns the text before it (with earlier occurrences as written) and the
text after it. -/
def splitBefore3CI (pat : Str) : Str → Option (Str × Str × Str)
  | [] => none
  | c :: rest =>
    match dropPrefCI pat (c :: rest) with
    | some r => some ([], (c :: rest).take pat.length, r)
    | none => (splitBefore3CI pat rest).map fun (mid, occ, r) => (c :: mid, occ, r)

def lastBeforeCIF (pat : Str) : Nat → Str → Option (Str × Str)
  | 0, _ => none
  | f + 1, s =>
    match splitBefore3CI pat s with
    | none => none
    | some (pre, occ, r) =>
      match lastBeforeCIF pat f r with
      | some (pre2, r2) => some (pre ++ occ ++ pre2, r2)
      | none => some (pre, r)

/-- Split at the LAST case-insensitive occurrence of `pat` (for the greedy
`[\s\S]*` of the `<body>` pattern). -/
def lastBeforeCI (pat s : Str) : Option (Str × Str) := lastBeforeCIF pat s.length s

/-- Matcher for `<body[^>]*>([\s\S]*)<\/body>` (with `/i`): greedy, so the
capture runs to the last `</body>`. -/
def mBody : PMatch Str := guardCh '<' fun s =>
  (dropPrefCI "<body".data s).bind fun r1 =>
  (afterGt r1).bind fun r2 =>
  (lastBeforeCI "</body>".data r2).map fun (content, r3) => (content, r3)

/-- The `bodyMatch` step of `parseHTMLElements`: the body content if a
`<body>` element matches, the whole input otherwise. -/
def bodyContent (html : Str) : Str := (findFirst mBody html).getD html

/-- `parseHTMLElements` (enhancedEpubParser.ts, lines 414–478). -/
def parseHTMLElements (html : Str) : List PElem :=
  let content := bodyContent html
  let parts := splitBlocks content
  (elemsGo parts [] false []).filter fun e => !(jsTrim e.content).isEmpty

/-! ## Chapter assembly and the enhanced parse (enhancedEpubParser.ts) -/

/-- A footnotes map, as a JavaScript object: insertion-ordered key/value
pairs with in-place overwrite. -/
abbrev Fns := List (Str × Str)

/-- `obj[k] = v` on a JavaScript object. -/
def setKey : Fns → Str → Str → Fns
  | [], k, v => [(k, v)]
  | (k0, v0) :: rest, k, v =>
    if k0 = k then (k0, v) :: rest else (k0, v0) :: setKey rest k v

/-- `{...a, ...b}`: spread-merge, later keys overwriting earlier ones. -/
def mergeFns (a b : Fns) : Fns := b.foldl (fun acc p => setKey acc p.1 p.2) a

/-- Matcher for an attribute pattern `attr["']([^"']+)["']` (e.g.
`id=["']([^"']+)["']`, case-sensitive). -/
def mAttrVal (attr : Str) : PMatch Str := fun s =>
  (dropPref attr s).bind fun r1 =>
    match r1 with
    | q :: r2 =>
      if q = '"' ∨ q = apos then
        let v := r2.takeWhile fun c => c ≠ '"' && c ≠ apos
        match r2.dropWhile (fun c => c ≠ '"' && c ≠ apos) with
        | q2 :: r3 =>
          if (q2 = '"' ∨ q2 = apos) ∧ v ≠ [] then some (v, r3) else none
        | [] => none
      else none
    | [] => none

/-- Matcher for `>([^<]+)<` (the `textMatch` of footnote extraction). -/
def mGtTextLt : PMatch Str := guardCh '>' fun s =>
  match s with
  | _ :: r =>
    let v := r.takeWhile (· ≠ '<')
    match r.dropWhile (· ≠ '<') with
    | '<' :: rest => if v = [] then none else some (v, rest)
    | _ => none
  | [] => none

/-- Search for `pat` (case-insensitive) and return the consumed text as
written (including the occurrence) together with the rest. -/
def splitCloseCI (pat : Str) : Str → Option (Str × Str)
  | [] => none
  | c :: rest =>
    match dropPrefCI pat (c :: rest) with
    | some r => some ((c :: rest).take pat.length, r)
    | none => (splitCloseCI pat rest).map fun (mid, r) => (c :: mid, r)

/-- Matcher for `<div[^>]*class="footnote"[^>]*>[\s\S]*?<\/div>` (with
`/gi`): returns the whole matched block as written. -/
def mFootDiv : PMatch Str := guardCh '<' fun s =>
  if (dropPrefCI "<div".data s).isSome then
    let r1 := s.drop 4
    match r1.dropWhile (· ≠ '>') with
    | '>' :: r2 =>
      let span := r1.takeWhile (· ≠ '>')
      if hasSubCI "class=\x22footnote\x22".data span then
        (splitCloseCI "</div>".data r2).map fun (mid, r3) =>
          (s.take 4 ++ span ++ '>' :: mid, r3)
      else none
    | _ => none
  else none

/-- Replacement form of `mFootDiv` (for removing the footnote blocks). -/
def mFootDivRem : PMatch Str := fun s => (mFootDiv s).map fun (_, r) => ([], r)

/-- The footnote-collection loop of `parseHTMLToStructuredContent`
(lines 387–395): for each matched block take its first `id=…` attribute
and its first `>text<` run. -/
def collectFootnotes (blocks : List Str) : Fns :=
  blocks.foldl
    (fun acc block =>
      match findFirst (mAttrVal "id=".data) block, findFirst mGtTextLt block with
      | some i, some t => setKey acc i (jsTrim t)
      | _, _ => acc)
    []

/-- Matcher for `<title[^>]*>([^<]+)<\/title>` (with `/i`). -/
def mTitleTag : PMatch Str := guardCh '<' fun s =>
  (dropPrefCI "<title".data s).bind fun r1 =>
  (afterGt r1).bind fun r2 =>
    let v := r2.takeWhile (· ≠ '<')
    if v = [] then none
    else (dropPrefCI "</title>".data (r2.dropWhile (· ≠ '<'))).map fun r3 => (v, r3)

/-- Matcher for `<h[1-6][^>]*>([^<]+)<\/h[1-6]>` (with `/i`); the closing
digit need not equal the opening one. -/
def mHeadingTxt : PMatch Str := guardCh '<' fun s =>
  match s with
  | _ :: c1 :: d :: r =>
    if chEqCI 'h' c1 && ('1' ≤ d && d ≤ '6') then
      (afterGt r).bind fun r2 =>
        let v := r2.takeWhile (· ≠ '<')
        if v = [] then none
        else
          match r2.dropWhile (· ≠ '<') with
          | _ :: '/' :: c2 :: d2 :: '>' :: r3 =>
            if chEqCI 'h' c2 && ('1' ≤ d2 && d2 ≤ '6') then some (v, r3) else none
          | _ => none
    else none
  | _ => none

/-- `filePath.replace(/.*\//, '')`: remove everything up to and including
the last `/` of the first line that contains one (`.` does not match a
newline; only the first match is replaced). -/
def afterLastSlash (s : Str) : Str :=
  match splitCloseCI ['/'] s.reverse with
  | some (mid, _) => mid.dropLast.reverse
  | none => s

def dropDirs : Str → Str
  | [] => []
  | c :: rest =>
    let line := (c :: rest).takeWhile (· ≠ '\n')
    if line.contains '/' then
      afterLastSlash line ++ (c :: rest).dropWhile (· ≠ '\n')
    else c :: dropDirs rest

/-- `.replace(/\.(html|xhtml|htm)$/, '')` (case-sensitive): drop one
HTML-extension suffix. -/
def dropHtmlExt (s : Str) : Str :=
  if hasSuf ".html".data s then s.take (s.length - 5)
  else if hasSuf ".xhtml".data s then s.take (s.length - 6)
  else if hasSuf ".htm".data s then s.take (s.length - 4)
  else s

/-- An `EPUBChapter` (only the fields this code path sets). -/
structure ChapterM where
  id : Str
  title : Str
  content : List PElem
  pageBreakBefore : Bool
  pageBreakAfter : Bool
deriving DecidableEq, Repr

/-- `parseHTMLToStructuredContent` (enhancedEpubParser.ts, lines
361–412). -/
def parseHTMLToStructuredContent (html chapterId filePath : Str) :
    ChapterM × Fns :=
  let fileTitle := dropHtmlExt (dropDirs filePath)
  let chapterTitle :=
    match findFirst mTitleTag html with
    | some t => t
    | none =>
      match findFirst mHeadingTxt html with
      | some h => h
      | none => fileTitle
  let cleanHtml := stOpen "meta".data [] (stOpen "link".data []
    (stRemBlock "script".data (stRemBlock "style".data html)))
  let footnotes := collectFootnotes (findAll mFootDiv cleanHtml)
  let cleanHtml2 :=
    if (findAll mFootDiv cleanHtml).isEmpty then cleanHtml
    else replAll mFootDivRem cleanHtml
  let elements := parseHTMLElements cleanHtml2
  (⟨chapterId, chapterTitle, elements,
    hasSub "page-break-before".data html,
    hasSub "page-break-after".data html⟩, footnotes)

/-- A zip archive as JSZip presents it: entry names (in archive order)
with their decompressed text. -/
abbrev Zip := List (Str × Str)

/-- `zip.file(path)?.async('text')`: the first entry with this exact
name, if any. -/
def zipRead (z : Zip) (path : Str) : Option Str :=
  match z.find? (fun e => e.1 = path) with
  | some e => some e.2
  | none => none

/-- A table-of-contents entry (`EPUBTableOfContents`, flat fields only —
`children` is never set). -/
structure TocEntry where
  id : Str
  title : Str
  href : Str
  level : Nat
deriving DecidableEq, Repr

/-- `EnhancedEPUBContent`. -/
structure EnhancedContent where
  title : Str
  author : Str
  chapters : List ChapterM
  tableOfContents : List TocEntry
  footnotes : Fns
  pageBreaks : List Nat
deriving DecidableEq, Repr

/-- The metadata record threaded through the enhanced parser. -/
structure MetaM where
  title : Str
  author : Str
  opfDir : Str
deriving DecidableEq, Repr

/-- A manifest: id → href, built with JavaScript-object semantics. -/
abbrev Manifest := List (Str × Str)

/-- `manifestItems[spineId]`. -/
def manifestLookup (m : Manifest) (id : Str) : Option Str :=
  match m.find? (fun e => e.1 = id) with
  | some e => some e.2
  | none => none

/-- `processChaptersSequentially` (enhancedEpubParser.ts, lines 285–359),
recursing over the remaining spine ids: a spine id with no manifest entry
or unreadable content is skipped (the `catchError` branch coincides with
the skip branch), otherwise its parsed chapter is appended and its
footnotes spread-merged. -/
def processChaptersSeq (z : Zip) (md : MetaM) (manifest : Manifest)
    (toc : List TocEntry) :
    List Str → List ChapterM → Fns → List Nat → EnhancedContent
  | [], accCh, accFn, accPb =>
    ⟨md.title, md.author, accCh, toc, accFn, accPb⟩
  | spineId :: rest, accCh, accFn, accPb =>
    match manifestLookup manifest spineId with
    | none => processChaptersSeq z md manifest toc rest accCh accFn accPb
    | some filePath =>
      match zipRead z (md.opfDir ++ filePath) with
      | none => processChaptersSeq z md manifest toc rest accCh accFn accPb
      | some fileContent =>
        let pf := parseHTMLToStructuredContent fileContent spineId filePath
        processChaptersSeq z md manifest toc rest
          (accCh ++ [pf.1]) (mergeFns accFn pf.2) accPb

/-- `processEnhancedContent` (enhancedEpubParser.ts, lines 243–283):
process at most the first 25 spine ids. -/
def processEnhancedContent (z : Zip) (md : MetaM) (manifest : Manifest)
    (spineIds : List Str) (toc : List TocEntry) : EnhancedContent :=
  let chaptersToProcess := spineIds.take 25
  if chaptersToProcess.length = 0 then
    ⟨md.title, md.author, [], toc, [], []⟩
  else processChaptersSeq z md manifest toc chaptersToProcess [] [] []

/-! ## Package-document scanning (extractEPUBStructure) -/

/-- Matcher for `attr"([^"]+)"` (double quotes only, e.g.
`full-path="([^"]+)"`). -/
def mAttrDq (attr : Str) : PMatch Str := fun s =>
  (dropPref attr s).bind fun r1 =>
    match r1 with
    | '"' :: r2 =>
      let v := r2.takeWhile (· ≠ '"')
      match r2.dropWhile (· ≠ '"') with
      | '"' :: r3 => if v = [] then none else some (v, r3)
      | _ => none
    | _ => none

/-- Matcher for `<item[^>]*>` (case-sensitive, `/g`), returning the
matched tag text; note that it also matches `<itemref …>`. -/
def mItemTag : PMatch Str := guardCh '<' fun s =>
  (dropPref "<item".data s).bind fun r1 =>
    match r1.dropWhile (· ≠ '>') with
    | '>' :: r2 => some ("<item".data ++ r1.takeWhile (· ≠ '>') ++ ['>'], r2)
    | _ => none

/-- Matcher for `idref="([^"]+)"` at the current position, returning the
matched text and the capture. -/
def mIdrefAt : PMatch (Str × Str) := fun s =>
  (dropPref "idref=\x22".data s).bind fun r1 =>
    let b := r1.takeWhile (· ≠ '"')
    match r1.dropWhile (· ≠ '"') with
    | '"' :: r2 =>
      if b = [] then none
      else some (("idref=\x22".data ++ b ++ ['"'], b), r2)
    | _ => none

/-- The greedy `[^>]*idref="([^"]+)"` tail of the spine pattern, with
regex backtracking (longest `[^>]*` first): returns the consumed text and
the rest. -/
def itemRefTail : Str → Option (Str × Str)
  | [] => none
  | c :: rest =>
    match (if c ≠ '>' then itemRefTail rest else none) with
    | some (t, r) => some (c :: t, r)
    | none => (mIdrefAt (c :: rest)).map fun x => (x.1.1, x.2)

/-- Matcher for `<itemref[^>]*idref="([^"]+)"` (case-sensitive, `/g`),
returning the matched text. -/
def mItemRef : PMatch Str := guardCh '<' fun s =>
  (dropPref "<itemref".data s).bind fun r1 =>
  (itemRefTail r1).map fun (t, r) => ("<itemref".data ++ t, r)

/-- `spineIds` extraction (lines 130–134): match all
`<itemref[^>]*idref="([^"]+)"`, re-extract `idref="([^"]+)"` from each
matched string, and drop the (impossible) failures. -/
def extractSpineIds (opf : Str) : List Str :=
  (findAll mItemRef opf).filterMap fun t =>
    findFirst (fun s => (mIdrefAt s).map fun x => (x.1.2, x.2)) t

/-- The manifest-scanning fold of `extractEPUBStructure` (lines 142–160):
record `id → href` for items with both attributes, and overwrite `tocPath`
whenever an item has a media-type attribute and either the NCX media type
or `toc` in its id or href (lower-cased). -/
def scanManifestTags (tags : List Str) : Manifest × Option Str :=
  tags.foldl
    (fun acc tag =>
      match findFirst (mAttrVal "id=".data) tag,
            findFirst (mAttrVal "href=".data) tag with
      | some i, some h =>
        let man := setKey acc.1 i h
        let toc :=
          match findFirst (mAttrVal "media-type=".data) tag with
          | some mt =>
            if mt = "application/x-dtbncx+xml".data ∨
               hasSub "toc".data (lowerStr i) ∨
               hasSub "toc".data (lowerStr h) then some h
            else acc.2
          | none => acc.2
        (man, toc)
      | _, _ => acc)
    ([], none)

/-- Manifest and TOC path from the package document. -/
def extractManifestAndToc (opf : Str) : Manifest × Option Str :=
  scanManifestTags (findAll mItemTag opf)

/-- Matcher for `<w[^>]*>([^<]+)<\/w>` (case-sensitive), e.g. the
`dc:title`, `dc:creator` and NCX `text` elements. -/
def mXmlTag (w : Str) : PMatch Str := guardCh '<' fun s =>
  (dropPref ('<' :: w) s).bind fun r1 =>
  (afterGt r1).bind fun r2 =>
    let v := r2.takeWhile (· ≠ '<')
    if v = [] then none
    else (dropPref ('<' :: '/' :: (w ++ ['>'])) (r2.dropWhile (· ≠ '<'))).map
      fun r3 => (v, r3)

/-- `opfPath.substring(0, opfPath.lastIndexOf('/') + 1)`. -/
def opfDirOf (p : Str) : Str :=
  match splitCloseCI ['/'] p.reverse with
  | some (_, r) => r.reverse ++ ['/']
  | none => []

/-- `extractEPUBStructure` (enhancedEpubParser.ts, lines 96–178; the
identical structure phase of epubParser.ts and epubParserService.ts): the
two fatal container/package conditions, then metadata, spine, manifest and
TOC-path extraction. -/
def extractStructure (z : Zip) :
    Except Str (MetaM × Manifest × List Str × Option Str) :=
  match zipRead z "META-INF/container.xml".data with
  | none => .error "Invalid EPUB: No container.xml found".data
  | some containerXml =>
    match findFirst (mAttrDq "full-path=".data) containerXml with
    | none => .error "Invalid EPUB: No OPF file path found".data
    | some opfPath =>
      match zipRead z opfPath with
      | none => .error ("Invalid EPUB: OPF file not found at ".data ++ opfPath)
      | some opf =>
        let title := (findFirst (mXmlTag "dc:title".data) opf).getD "Unknown Title".data
        let author := (findFirst (mXmlTag "dc:creator".data) opf).getD "Unknown Author".data
        let (man, toc) := extractManifestAndToc opf
        .ok (⟨title, author, opfDirOf opfPath⟩, man, extractSpineIds opf, toc)

/-! ## Table-of-contents parsing (parseTableOfContents) -/

/-- Case-sensitive variant of `splitCloseCI`. -/
def splitClose (pat : Str) : Str → Option (Str × Str)
  | [] => none
  | c :: rest =>
    match dropPref pat (c :: rest) with
    | some r => some ((c :: rest).take pat.length, r)
    | none => (splitClose pat rest).map fun (mid, r) => (c :: mid, r)

/-- Matcher for `<w[^>]*>[\s\S]*?<\/w>` (case-sensitive, `/g`), returning
the whole matched block — used for `<navPoint>` and `<li>` blocks. -/
def mLazyBlock (w : Str) : PMatch Str := guardCh '<' fun s =>
  (dropPref ('<' :: w) s).bind fun r1 =>
    match r1.dropWhile (· ≠ '>') with
    | '>' :: r2 =>
      (splitClose ('<' :: '/' :: (w ++ ['>'])) r2).map fun (mid, r3) =>
        ('<' :: (w ++ r1.takeWhile (· ≠ '>') ++ '>' :: mid), r3)
    | _ => none

/-- Matcher for `src=["']([^"'#]+)` at the current position. -/
def mSrcAt : PMatch Str := fun s =>
  (dropPref "src=".data s).bind fun r1 =>
    match r1 with
    | q :: r2 =>
      if q = '"' ∨ q = apos then
        let v := r2.takeWhile fun c => c ≠ '"' && c ≠ apos && c ≠ '#'
        if v = [] then none else some (v, r2.drop v.length)
      else none
    | [] => none

/-- The greedy `[^>]*src=["']([^"'#]+)` tail of the `<content>` pattern. -/
def contentSrcTail : Str → Option (Str × Str)
  | [] => none
  | c :: rest =>
    match (if c ≠ '>' then contentSrcTail rest else none) with
    | some x => some x
    | none => mSrcAt (c :: rest)

/-- Matcher for `<content[^>]*src=["']([^"'#]+)/` (case-sensitive): the
NCX href, with any `#fragment` left unconsumed (hence stripped). -/
def mContentSrc : PMatch Str := guardCh '<' fun s =>
  (dropPref "<content".data s).bind fun r1 => contentSrcTail r1

/-- The href/text part `href=["']([^"'#]+)[^"']*["'][^>]*>([^<]+)<\/a>`
of the nav-anchor pattern, at the current position. -/
def mHrefPart : PMatch (Str × Str) := fun s =>
  (dropPref "href=".data s).bind fun r1 =>
    match r1 with
    | q :: r2 =>
      if q = '"' ∨ q = apos then
        let v := r2.takeWhile fun c => c ≠ '"' && c ≠ apos && c ≠ '#'
        if v = [] then none
        else
          match (r2.drop v.length).dropWhile (fun c => c ≠ '"' && c ≠ apos) with
          | q2 :: r5 =>
            if q2 = '"' ∨ q2 = apos then
              match r5.dropWhile (· ≠ '>') with
              | '>' :: r6 =>
                let t := r6.takeWhile (· ≠ '<')
                if t = [] then none
                else (dropPref "</a>".data (r6.dropWhile (· ≠ '<'))).map
                  fun r7 => ((v, t), r7)
              | _ => none
            else none
          | [] => none
      else none
    | [] => none

/-- The greedy `[^>]*href=…` tail of the nav-anchor pattern. -/
def aTagTail : Str → Option ((Str × Str) × Str)
  | [] => none
  | c :: rest =>
    match (if c ≠ '>' then aTagTail rest else none) with
    | some x => some x
    | none => mHrefPart (c :: rest)

/-- Matcher for
`<a[^>]*href=["']([^"'#]+)[^"']*["'][^>]*>([^<]+)<\/a>`
(case-sensitive): href (fragment stripped) and link text. -/
def mATag : PMatch (Str × Str) := guardCh '<' fun s =>
  (dropPref "<a".data s).bind fun r1 => aTagTail r1

/-- The TOC-building branch dispatch of `parseTableOfContents`
(enhancedEpubParser.ts, lines 196–237), given the TOC document text. -/
def parseTocContent (tocContent : Str) : List TocEntry :=
  if hasSub "<navMap>".data tocContent then
    ((findAll (mLazyBlock "navPoint".data) tocContent).enum.filterMap
      fun (idx, block) =>
        match findFirst (mXmlTag "text".data) block,
              findFirst mContentSrc block with
        | some title, some href =>
          let id :=
            match findFirst (mAttrVal "id=".data) block with
            | some i => i
            | none => "toc-".data ++ (Nat.repr idx).data
          some ⟨id, jsTrim title, href, 1⟩
        | _, _ => none)
  else if hasSub "<nav".data tocContent then
    ((findAll (mLazyBlock "li".data) tocContent).enum.filterMap
      fun (idx, block) =>
        match findFirst mATag block with
        | some (href, text) =>
          some ⟨"toc-".data ++ (Nat.repr idx).data, jsTrim text, href, 1⟩
        | none => none)
  else []

/-- `parseTableOfContents` (lines 180–241): no TOC path or an unreadable
entry gives an empty TOC. -/
def parseTableOfContents (z : Zip) (md : MetaM) (tocPath : Option Str) :
    List TocEntry :=
  match tocPath with
  | none => []
  | some tp =>
    match zipRead z (md.opfDir ++ tp) with
    | none => []
    | some content => parseTocContent content

instance : DecidableEq (MetaM × Manifest × List Str × Option Str) :=
  instDecidableEqProd

/-- The enhanced parse pipeline (`EnhancedEPUBParser.parseEPUB`, lines
58–94, with the progress side channel dropped): structure extraction, TOC
parsing, then content processing. -/
def parseEnhanced (z : Zip) : Except Str EnhancedContent :=
  match extractStructure z with
  | .error e => .error e
  | .ok (md, man, spine, tocPath) =>
    .ok (processEnhancedContent z md man spine (parseTableOfContents z md tocPath))

/-! ## The simple parser content phase (epubParser.ts) and the service
parser (epubParserService.ts) -/

/-- An `EPUBContent` result of the flat-text parsers. -/
structure SimpleResult where
  title : Str
  author : Str
  content : Str
deriving DecidableEq, Repr

/-- Code-unit-wise `<` on strings (the default `Array.prototype.sort`
comparison). -/
def strLt : Str → Str → Bool
  | [], [] => false
  | [], _ :: _ => true
  | _ :: _, [] => false
  | a :: as, b :: bs =>
    if a.toNat < b.toNat then true
    else if b.toNat < a.toNat then false
    else strLt as bs

def insertSorted (x : Str) : List Str → List Str
  | [] => [x]
  | y :: ys => if strLt y x then y :: insertSorted x ys else x :: y :: ys

/-- `Array.prototype.sort()` with the default (code-unit) ordering. -/
def sortJs (l : List Str) : List Str := l.foldr insertSorted []

/-- `filename.match(/\.(html|xhtml|htm)$/i)`: has an HTML extension. -/
def htmlExtTest (name : Str) : Bool :=
  hasSufCI ".html".data name || hasSufCI ".xhtml".data name ||
  hasSufCI ".htm".data name

/-- The fallback filter of epubParser.ts (lines 174–181) and
epubParserService.ts (lines 214–221): HTML extension, not starting with
`__MACOSX`, and not containing `jacket`, `cover` or `titlepage`
(case-sensitive substring tests). -/
def fallbackPred (name : Str) : Bool :=
  htmlExtTest name && !hasPref "__MACOSX".data name &&
  !hasSub "jacket".data name && !hasSub "cover".data name &&
  !hasSub "titlepage".data name

/-- The fallback file list of `parseEPUB` (filter, sort, first 15). -/
def fallbackFilesA (names : List Str) : List Str :=
  (sortJs (names.filter fallbackPred)).take 15

/-- The fallback file list of `EPUBParserService.fallbackExtraction`
(filter, sort, first 10). -/
def fallbackFilesSvc (names : List Str) : List Str :=
  (sortJs (names.filter fallbackPred)).take 10

/-- Modelled from the spec (§4.5 and claim C5), for comparison only: the
claim's version of the fallback filter, with `__MACOSX`, `jacket`,
`cover` and `titlepage` all excluded by case-insensitive substring
matching. -/
def claimFallbackPred (name : Str) : Bool :=
  htmlExtTest name && !hasSubCI "__MACOSX".data name &&
  !hasSubCI "jacket".data name && !hasSubCI "cover".data name &&
  !hasSubCI "titlepage".data name

/-- Modelled from the spec (claim C5): the selection the claim describes —
qualifying entries by the case-insensitive rule, sorted, capped. -/
def claimFallbackSelection (names : List Str) : List Str :=
  (sortJs (names.filter claimFallbackPred)).take 15

/-- The spine loop of `parseEPUB` (epubParser.ts, lines 83–162): skip ids
with no manifest entry or unreadable content; append converted text only
when longer than 10 characters. -/
def spinePhase (z : Zip) (opfDir : Str) (man : Manifest) :
    List Str → Str → Str
  | [], acc => acc
  | id :: rest, acc =>
    match manifestLookup man id with
    | none => spinePhase z opfDir man rest acc
    | some fp =>
      match zipRead z (opfDir ++ fp) with
      | none => spinePhase z opfDir man rest acc
      | some content =>
        let t := spineConvert content
        if 10 < t.length then
          spinePhase z opfDir man rest (acc ++ t ++ "\n\n".data)
        else spinePhase z opfDir man rest acc

/-- The fallback loop of `parseEPUB` (lines 188–237). -/
def fallbackPhase (z : Zip) : List Str → Str → Str
  | [], acc => acc
  | f :: rest, acc =>
    match zipRead z f with
    | none => fallbackPhase z rest acc
    | some content =>
      let t := fallbackConvert content
      if 10 < t.length then fallbackPhase z rest (acc ++ t ++ "\n\n".data)
      else fallbackPhase z rest acc

/-- The truncation notice of `parseEPUB` (lines 164–166). -/
def truncNoticeA (n : Nat) : Str :=
  "\n\n[Content truncated - showing first 20 chapters of ".data ++
  (Nat.repr n).data ++ " total chapters to improve performance]".data

/-- `Array.prototype.join(', ')`. -/
def joinComma : List Str → Str
  | [] => []
  | [x] => x
  | x :: xs => x ++ ", ".data ++ joinComma xs

/-- The `NoReadableContent` error message of `parseEPUB` (lines 244–251):
up to 20 non-directory entry names, with an ellipsis when the archive has
more than 20 entries. -/
def noReadableMsg (names : List Str) : Str :=
  "No readable text content found in EPUB file. Files found: ".data ++
  joinComma ((names.filter fun n => !hasSuf ['/'] n).take 20) ++
  (if 20 < names.length then "...".data else [])

/-- The content phase of `parseEPUB` (epubParser.ts, lines 76–258), after
container/package extraction: spine extraction capped at 20 with a
truncation notice beyond that, fallback scanning when under 500 trimmed
characters, a second notice when the fallback list was capped, and the
fatal no-readable-content error when nothing at all was accumulated. -/
def parseEPUBContentPhase (z : Zip) (opfDir : Str) (man : Manifest)
    (spineIds : List Str) (title author : Str) : Except Str SimpleResult :=
  let full1 := spinePhase z opfDir man (spineIds.take 20) []
  let full2 :=
    if 20 < spineIds.length then full1 ++ truncNoticeA spineIds.length
    else full1
  let names := z.map (·.1)
  let full3 :=
    if (jsTrim full2).length < 500 then
      let htmlFiles := fallbackFilesA names
      let fb := fallbackPhase z htmlFiles full2
      if htmlFiles.length = 15 ∧ 15 < (names.filter htmlExtTest).length then
        fb ++ "\n\n[Content truncated for performance - showing first 15 HTML files]".data
      else fb
    else full2
  if jsTrim full3 = [] then .error (noReadableMsg names)
  else .ok ⟨title, author, jsTrim full3⟩

/-- `processFilesSequentially` (epubParserService.ts, lines 154–205). -/
def processFilesSeq (z : Zip) (md : MetaM) (man : Manifest) :
    List Str → Str → SimpleResult
  | [], acc =>
    ⟨md.title, md.author,
     if jsTrim acc = [] then "No readable content found".data else jsTrim acc⟩
  | id :: rest, acc =>
    match manifestLookup man id with
    | none => processFilesSeq z md man rest acc
    | some fp =>
      match zipRead z (md.opfDir ++ fp) with
      | none => processFilesSeq z md man rest acc
      | some content =>
        let t := htmlToText content
        processFilesSeq z md man rest
          (acc ++ (if t = [] then [] else t ++ "\n\n".data))

/-- `processHtmlFilesSequentially` (epubParserService.ts, lines 236–273). -/
def processHtmlFilesSeq (z : Zip) (md : MetaM) : List Str → Str → SimpleResult
  | [], acc =>
    ⟨md.title, md.author,
     if jsTrim acc = [] then "No readable content found".data else jsTrim acc⟩
  | f :: rest, acc =>
    match zipRead z f with
    | none => processHtmlFilesSeq z md rest acc
    | some content =>
      let t := htmlToText content
      processHtmlFilesSeq z md rest
        (acc ++ (if t = [] then [] else t ++ "\n\n".data))

/-- `fallbackExtraction` (epubParserService.ts, lines 207–234): with zero
qualifying HTML entries it returns a *successful* placeholder result. -/
def fallbackExtractionSvc (z : Zip) (md : MetaM) : SimpleResult :=
  let htmlFiles := fallbackFilesSvc (z.map (·.1))
  if htmlFiles.length = 0 then
    ⟨md.title, md.author, "No readable content found in EPUB file".data⟩
  else processHtmlFilesSeq z md htmlFiles []

/-- `processContent` (epubParserService.ts, lines 130–152). -/
def processContentSvc (z : Zip) (md : MetaM) (man : Manifest)
    (spineIds : List Str) : SimpleResult :=
  let filesToProcess := spineIds.take 20
  if filesToProcess.length = 0 then fallbackExtractionSvc z md
  else processFilesSeq z md man filesToProcess []

/-! ## Whitespace normal forms (proof infrastructure for idempotence) -/

/-- No two adjacent characters form a `bad` pair. -/
def pairsOk (bad : Char → Char → Bool) : Str → Bool
  | a :: b :: rest => !bad a b && pairsOk bad (b :: rest)
  | _ => true

/-- No three adjacent characters form a `bad` triple. -/
def triplesOk (bad : Char → Char → Char → Bool) : Str → Bool
  | a :: b :: c :: rest => !bad a b c && triplesOk bad (b :: c :: rest)
  | _ => true

/-- Two adjacent spaces/tabs (forbidden after stage 1). -/
def bSS (a b : Char) : Bool := isSpTab a && isSpTab b

/-- A space/tab right after a newline (forbidden after stage 2). -/
def bNlSp (a b : Char) : Bool := a = '\n' && isSpTab b

/-- A space/tab right before a newline (forbidden after stage 3). -/
def bSpNl (a b : Char) : Bool := isSpTab a && b = '\n'

/-- Three adjacent newlines (forbidden after stage 4). -/
def bNl3 (a b c : Char) : Bool := a = '\n' && b = '\n' && c = '\n'

/-- The normal form guaranteed by `wsClean`: no tab, no adjacent
space/tab runs, no space/tab adjacent to a newline, newline runs of at
most two, and no leading/trailing JS whitespace. -/
def wsNormal (s : Str) : Prop :=
  '\t' ∉ s ∧ pairsOk bSS s = true ∧ pairsOk bNlSp s = true ∧
  pairsOk bSpNl s = true ∧ triplesOk bNl3 s = true ∧
  (∀ c, s.head? = some c → wsJs c = false) ∧
  (∀ c, s.getLast? = some c → wsJs c = false)

/-- Non-decreasing in the code-unit order (no later element below an
earlier neighbour). -/
def sortedJs : List Str → Bool
  | a :: b :: rest => !strLt b a && sortedJs (b :: rest)
  | _ => true

/-- `p` occurs as a contiguous substring of `s`. -/
def occursIn (p s : Str) : Prop := ∃ u v, s = u ++ p ++ v

/-! ## Concrete example archives and documents used in the theorems -/

/-- A minimal well-formed archive: container, package document with one
manifest item and one spine ref, one content document. -/
def exC1zip : Zip :=
  [("META-INF/container.xml".data,
    "<container><rootfiles><rootfile full-path=\x22content.opf\x22/></rootfiles></container>".data),
   ("content.opf".data,
    ("<package><manifest><item id=\x22ch1\x22 href=\x22c1.html\x22/></manifest>" ++
     "<spine><itemref idref=\x22ch1\x22/></spine></package>").data),
   ("c1.html".data, "<p>Hello</p>".data)]

/-- An NCX document with a flat three-entry outline (C7). -/
def ncxDocEx : Str :=
  ("<?xml version=\x221.0\x22?><ncx><navMap>" ++
   "<navPoint><navLabel><text>A</text></navLabel><content src=\x22a.html#f\x22/></navPoint>" ++
   "<navPoint><navLabel><text>B</text></navLabel><content src=\x22b.html\x22/></navPoint>" ++
   "<navPoint><navLabel><text>C</text></navLabel><content src=\x22c.html#g\x22/></navPoint>" ++
   "</navMap></ncx>").data

/-- An EPUB3 XHTML-nav document with the same three-entry outline (C7). -/
def navDocEx : Str :=
  ("<html><body><nav epub:type=\x22toc\x22><ol>" ++
   "<li><a href=\x22a.html#f\x22>A</a></li>" ++
   "<li><a href=\x22b.html\x22>B</a></li>" ++
   "<li><a href=\x22c.html#g\x22>C</a></li>" ++
   "</ol></nav></body></html>").data

/-- The common normalized outline both documents must produce (C7). -/
def tocExpectedEx : List TocEntry :=
  [⟨"toc-0".data, ['A'], "a.html".data, 1⟩,
   ⟨"toc-1".data, ['B'], "b.html".data, 1⟩,
   ⟨"toc-2".data, ['C'], "c.html".data, 1⟩]

/-- A package document with two manifest items that both qualify as the
TOC (NCX media type), in document order `first.ncx`, `second.ncx` (C6). -/
def opfTwoTocEx : Str :=
  ("<package><manifest>" ++
   "<item id=\x22a\x22 href=\x22first.ncx\x22 media-type=\x22application/x-dtbncx+xml\x22/>" ++
   "<item id=\x22b\x22 href=\x22second.ncx\x22 media-type=\x22application/x-dtbncx+xml\x22/>" ++
   "</manifest></package>").data

/-- The two matched manifest item tags of `opfTwoTocEx` (C6). -/
def itemFirstEx : Str :=
  "<item id=\x22a\x22 href=\x22first.ncx\x22 media-type=\x22application/x-dtbncx+xml\x22/>".data
def itemSecondEx : Str :=
  "<item id=\x22b\x22 href=\x22second.ncx\x22 media-type=\x22application/x-dtbncx+xml\x22/>".data

/-- Archive entry names for the fallback-filter claims (C5): three plain
chapters, a capitalised `Cover.html` and a lower-case `cover.html`. -/
def fallbackNamesEx : List Str :=
  ["ch2.html".data, "ch1.html".data, "Cover.html".data, "cover.html".data,
   "ch3.html".data]

/-! # Theorems

General facts about the scanning machinery and the normal-form
predicates. -/

theorem pairsOk_cons_iff (bad : Char → Char → Bool) (x : Char) (l : Str) :
    pairsOk bad (x :: l) = true ↔
      (∀ y, l.head? = some y → bad x y = false) ∧ pairsOk bad l = true := by
  cases l with
  | nil => simp [pairsOk]
  | cons b rest =>
    simp only [pairsOk, Bool.and_eq_true, Bool.not_eq_true', List.head?_cons]
    constructor
    · rintro ⟨h1, h2⟩
      exact ⟨fun y hy => by cases hy; exact h1, h2⟩
    · rintro ⟨h1, h2⟩
      exact ⟨h1 b rfl, h2⟩

theorem pairsOk_tail {bad : Char → Char → Bool} {x : Char} {l : Str}
    (h : pairsOk bad (x :: l) = true) : pairsOk bad l = true :=
  ((pairsOk_cons_iff bad x l).mp h).2

theorem pairsOk_dropWhile {bad : Char → Char → Bool} (p : Char → Bool) :
    ∀ {l : Str}, pairsOk bad l = true → pairsOk bad (l.dropWhile p) = true := by
  intro l
  induction l with
  | nil => intro h; simpa using h
  | cons a l ih =>
    intro h
    rw [List.dropWhile_cons]
    split
    · exact ih (pairsOk_tail h)
    · exact h

theorem pairsOk_append_left {bad : Char → Char → Bool} :
    ∀ {l t : Str}, pairsOk bad (l ++ t) = true → pairsOk bad l = true := by
  intro l
  induction l with
  | nil => intro t _; rfl
  | cons a l ih =>
    intro t h
    rw [List.cons_append] at h
    have h2 := (pairsOk_cons_iff bad a (l ++ t)).mp h
    refine (pairsOk_cons_iff bad a l).mpr ⟨?_, ih h2.2⟩
    intro y hy
    apply h2.1
    cases l with
    | nil => cases hy
    | cons b rest => simpa using hy

theorem triplesOk_cons_iff (bad : Char → Char → Char → Bool) (x : Char) (l : Str) :
    triplesOk bad (x :: l) = true ↔
      (∀ y z, l.head? = some y → l.tail.head? = some z → bad x y z = false) ∧
      triplesOk bad l = true := by
  cases l with
  | nil => simp [triplesOk]
  | cons b rest =>
    cases rest with
    | nil => simp [triplesOk]
    | cons c rest2 =>
      simp only [triplesOk, Bool.and_eq_true, Bool.not_eq_true', List.head?_cons,
        List.tail_cons]
      constructor
      · rintro ⟨h1, h2⟩
        exact ⟨fun y z hy hz => by cases hy; cases hz; exact h1, h2⟩
      · rintro ⟨h1, h2⟩
        exact ⟨h1 b c rfl rfl, h2⟩

theorem triplesOk_tail {bad : Char → Char → Char → Bool} {x : Char} {l : Str}
    (h : triplesOk bad (x :: l) = true) : triplesOk bad l = true :=
  ((triplesOk_cons_iff bad x l).mp h).2

theorem triplesOk_dropWhile {bad : Char → Char → Char → Bool} (p : Char → Bool) :
    ∀ {l : Str}, triplesOk bad l = true → triplesOk bad (l.dropWhile p) = true := by
  intro l
  induction l with
  | nil => intro h; simpa using h
  | cons a l ih =>
    intro h
    rw [List.dropWhile_cons]
    split
    · exact ih (triplesOk_tail h)
    · exact h

theorem triplesOk_append_left {bad : Char → Char → Char → Bool} :
    ∀ {l t : Str}, triplesOk bad (l ++ t) = true → triplesOk bad l = true := by
  intro l
  induction l with
  | nil => intro t _; rfl
  | cons a l ih =>
    intro t h
    rw [List.cons_append] at h
    have h2 := (triplesOk_cons_iff bad a (l ++ t)).mp h
    refine (triplesOk_cons_iff bad a l).mpr ⟨?_, ih h2.2⟩
    intro y z hy hz
    apply h2.1
    · cases l with
      | nil => cases hy
      | cons b rest => simpa using hy
    · cases l with
      | nil => cases hy
      | cons b rest =>
        cases rest with
        | nil => cases hz
        | cons c r2 => simpa using hz

/-- A guarded matcher never fires on a string avoiding its guard
character, so the global replace is the identity there. -/
theorem scanRepl_guard_id (c0 : Char) (m : PMatch Str) :
    ∀ (fuel : Nat) (s : Str), c0 ∉ s → scanRepl (guardCh c0 m) fuel s = s := by
  intro fuel
  induction fuel with
  | zero => intro s _; rfl
  | succ f ih =>
    intro s h
    cases s with
    | nil => rfl
    | cons c rest =>
      have hc : ¬(c = c0) := fun e => h (e ▸ List.mem_cons_self c rest)
      simp only [scanRepl, guardCh, if_neg hc]
      rw [ih rest fun hm => h (List.mem_cons_of_mem c hm)]

theorem replAll_guard_id (c0 : Char) (m : PMatch Str) {s : Str} (h : c0 ∉ s) :
    replAll (guardCh c0 m) s = s :=
  scanRepl_guard_id c0 m s.length s h

/-! Identity of the tag and entity stages on strings without their
trigger characters. -/

theorem stRemBlock_id (w : Str) {s : Str} (h : '<' ∉ s) : stRemBlock w s = s :=
  replAll_guard_id '<' _ h

theorem stHeadOpen_id {s : Str} (h : '<' ∉ s) : stHeadOpen s = s :=
  replAll_guard_id '<' _ h

theorem stHeadClose_id {s : Str} (h : '<' ∉ s) : stHeadClose s = s :=
  replAll_guard_id '<' _ h

theorem stOpen_id (w repl : Str) {s : Str} (h : '<' ∉ s) : stOpen w repl s = s :=
  replAll_guard_id '<' _ h

theorem stClose_id (w repl : Str) {s : Str} (h : '<' ∉ s) : stClose w repl s = s :=
  replAll_guard_id '<' _ h

theorem stBr_id {s : Str} (h : '<' ∉ s) : stBr s = s :=
  replAll_guard_id '<' _ h

theorem stPB_id {s : Str} (h : '<' ∉ s) : stPB s = s :=
  replAll_guard_id '<' _ h

theorem stStrip_id {s : Str} (h : '<' ∉ s) : stStrip s = s :=
  replAll_guard_id '<' _ h

theorem stEnt_id (pat repl : Str) {s : Str} (h : '&' ∉ s) : stEnt pat repl s = s :=
  replAll_guard_id '&' _ h

/-- The whole tag chain is the identity on `<`-free strings. -/
theorem tagStagesFull_id {s : Str} (h : '<' ∉ s) : tagStagesFull s = s := by
  simp only [tagStagesFull]
  rw [stRemBlock_id _ h, stRemBlock_id _ h, stHeadOpen_id h, stHeadClose_id h,
    stOpen_id _ _ h, stClose_id _ _ h, stOpen_id _ _ h, stClose_id _ _ h,
    stOpen_id _ _ h, stClose_id _ _ h, stOpen_id _ _ h, stClose_id _ _ h,
    stOpen_id _ _ h, stClose_id _ _ h, stOpen_id _ _ h, stClose_id _ _ h,
    stBr_id h, stPB_id h, stStrip_id h]

/-- The entity chain is the identity on `&`-free strings. -/
theorem ents12_id {s : Str} (h : '&' ∉ s) : ents12 s = s := by
  simp only [ents12]
  rw [stEnt_id _ _ h, stEnt_id _ _ h, stEnt_id _ _ h, stEnt_id _ _ h,
    stEnt_id _ _ h, stEnt_id _ _ h, stEnt_id _ _ h, stEnt_id _ _ h,
    stEnt_id _ _ h, stEnt_id _ _ h, stEnt_id _ _ h, stEnt_id _ _ h]

/-! Trim lemmas. -/

theorem dropWhile_head_id {p : Char → Bool} {l : Str}
    (h : ∀ c, l.head? = some c → p c = false) : l.dropWhile p = l := by
  cases l with
  | nil => rfl
  | cons a l =>
    rw [List.dropWhile_cons, if_neg]
    simp [h a rfl]

theorem dropWhile_suffix_decomp (p : Char → Bool) :
    ∀ l : Str, ∃ u, l = u ++ l.dropWhile p := by
  intro l
  induction l with
  | nil => exact ⟨[], rfl⟩
  | cons a l ih =>
    rw [List.dropWhile_cons]
    split
    · obtain ⟨u, hu⟩ := ih
      exact ⟨a :: u, by rw [List.cons_append, ← hu]⟩
    · exact ⟨[], rfl⟩

theorem head_of_dropWhile {p : Char → Bool} :
    ∀ {l : Str} {c : Char}, (l.dropWhile p).head? = some c → p c = false := by
  intro l
  induction l with
  | nil => intro c h; cases h
  | cons a l ih =>
    intro c h
    rw [List.dropWhile_cons] at h
    by_cases ha : p a = true
    · exact ih (by rwa [if_pos ha] at h)
    · rw [if_neg ha] at h
      cases h
      simpa using ha

theorem trimR_pref_decomp (s : Str) : ∃ u, s = trimR s ++ u := by
  obtain ⟨u, hu⟩ := dropWhile_suffix_decomp wsJs s.reverse
  refine ⟨u.reverse, ?_⟩
  have := congrArg List.reverse hu
  rwa [List.reverse_reverse, List.reverse_append] at this

theorem trimL_id {s : Str} (h : ∀ c, s.head? = some c → wsJs c = false) :
    trimL s = s := dropWhile_head_id h

theorem trimR_id {s : Str} (h : ∀ c, s.getLast? = some c → wsJs c = false) :
    trimR s = s := by
  unfold trimR
  rw [dropWhile_head_id, List.reverse_reverse]
  intro c hc
  exact h c (by rwa [List.head?_reverse] at hc)

theorem jsTrim_id {s : Str} (h1 : ∀ c, s.head? = some c → wsJs c = false)
    (h2 : ∀ c, s.getLast? = some c → wsJs c = false) : jsTrim s = s := by
  unfold jsTrim
  rw [trimL_id h1, trimR_id h2]

theorem mem_of_trimL {c : Char} {s : Str} (h : c ∈ trimL s) : c ∈ s := by
  obtain ⟨u, hu⟩ := dropWhile_suffix_decomp wsJs s
  rw [hu]
  exact List.mem_append_right u h

theorem mem_of_trimR {c : Char} {s : Str} (h : c ∈ trimR s) : c ∈ s := by
  obtain ⟨u, hu⟩ := trimR_pref_decomp s
  rw [hu]
  exact List.mem_append_left u h

theorem pairsOk_trimL {bad : Char → Char → Bool} {s : Str}
    (h : pairsOk bad s = true) : pairsOk bad (trimL s) = true :=
  pairsOk_dropWhile wsJs h

theorem pairsOk_trimR {bad : Char → Char → Bool} {s : Str}
    (h : pairsOk bad s = true) : pairsOk bad (trimR s) = true := by
  obtain ⟨u, hu⟩ := trimR_pref_decomp s
  exact pairsOk_append_left (hu ▸ h)

theorem triplesOk_trimL {bad : Char → Char → Char → Bool} {s : Str}
    (h : triplesOk bad s = true) : triplesOk bad (trimL s) = true :=
  triplesOk_dropWhile wsJs h

theorem triplesOk_trimR {bad : Char → Char → Char → Bool} {s : Str}
    (h : triplesOk bad s = true) : triplesOk bad (trimR s) = true := by
  obtain ⟨u, hu⟩ := trimR_pref_decomp s
  exact triplesOk_append_left (hu ▸ h)

theorem head_of_jsTrim {s : Str} {c : Char} (h : (jsTrim s).head? = some c) :
    wsJs c = false := by
  unfold jsTrim at h
  obtain ⟨u, hu⟩ := trimR_pref_decomp (trimL s)
  have hhead : (trimL s).head? = some c := by
    rw [hu]
    cases he : trimR (trimL s) with
    | nil => rw [he] at h; cases h
    | cons a t =>
      rw [he] at h
      simp only [List.cons_append, List.head?_cons] at h ⊢
      exact h
  exact head_of_dropWhile hhead

theorem getLast_of_jsTrim {s : Str} {c : Char}
    (h : (jsTrim s).getLast? = some c) : wsJs c = false := by
  unfold jsTrim trimR at h
  rw [← List.head?_reverse, List.reverse_reverse] at h
  exact head_of_dropWhile h

/-! Stage 1 (`/[ \t]+/g → " "`): establishment and identity. -/

theorem ws1go_true_head :
    ∀ {s : Str} {c : Char}, (ws1go true s).head? = some c → isSpTab c = false := by
  intro s
  induction s with
  | nil => intro c h; cases h
  | cons a rest ih =>
    intro c h
    by_cases ha : isSpTab a = true
    · exact ih (by simpa [ws1go, ha] using h)
    · simp only [ws1go, ha, if_neg, Bool.false_eq_true, if_false,
        List.head?_cons] at h
      cases h
      simpa using ha

theorem ws1_noTab : ∀ (b : Bool) (s : Str), '\t' ∉ ws1go b s := by
  intro b s
  induction s generalizing b with
  | nil => simp [ws1go]
  | cons a rest ih =>
    by_cases ha : isSpTab a = true
    · cases b with
      | true => simpa [ws1go, ha] using ih true
      | false =>
        simp only [ws1go, ha, if_true, Bool.false_eq_true, if_false,
          List.mem_cons]
        rintro (h | h)
        · cases h
        · exact ih true h
    · simp only [ws1go, ha, Bool.false_eq_true, if_false, List.mem_cons]
      rintro (h | h)
      · exact ha (h ▸ rfl)
      · exact ih false h

theorem ws1_bSS : ∀ (b : Bool) (s : Str), pairsOk bSS (ws1go b s) = true := by
  intro b s
  induction s generalizing b with
  | nil => simp [ws1go, pairsOk]
  | cons a rest ih =>
    by_cases ha : isSpTab a = true
    · cases b with
      | true => simpa [ws1go, ha] using ih true
      | false =>
        simp only [ws1go, ha, if_true, Bool.false_eq_true, if_false]
        refine (pairsOk_cons_iff _ _ _).mpr ⟨?_, ih true⟩
        intro y hy
        simp [bSS, ws1go_true_head hy]
    · simp only [ws1go, ha, Bool.false_eq_true, if_false]
      refine (pairsOk_cons_iff _ _ _).mpr ⟨?_, ih false⟩
      intro y _
      simp [bSS, ha]

theorem ws1go_id : ∀ (b : Bool) (s : Str), '\t' ∉ s → pairsOk bSS s = true →
    (b = true → ∀ d, s.head? = some d → isSpTab d = false) → ws1go b s = s := by
  intro b s
  induction s generalizing b with
  | nil => intro _ _ _; cases b <;> rfl
  | cons a rest ih =>
    intro hT hSS hb
    by_cases ha : isSpTab a = true
    · have hbf : b = false := by
        cases b with
        | false => rfl
        | true => exact absurd ha (by simpa using hb rfl a rfl)
      subst hbf
      have haSp : a = ' ' := by
        rcases (by simpa [isSpTab] using ha : a = ' ' ∨ a = '\t') with h | h
        · exact h
        · exact absurd (h ▸ List.mem_cons_self a rest) hT
      simp only [ws1go, ha, if_true, Bool.false_eq_true, if_false]
      rw [← haSp]
      congr 1
      refine ih true (fun hm => hT (List.mem_cons_of_mem a hm))
        (pairsOk_tail hSS) ?_
      intro _ d hd
      have := ((pairsOk_cons_iff bSS a rest).mp hSS).1 d hd
      simpa [bSS, ha] using this
    · simp only [ws1go, ha, Bool.false_eq_true, if_false]
      congr 1
      exact ih false (fun hm => hT (List.mem_cons_of_mem a hm))
        (pairsOk_tail hSS) (by intro h; cases h)

/-! Stage 2 (`/\n[ \t]+/g → "\n"`). -/

theorem ws2go_true_head :
    ∀ {s : Str} {c : Char}, (ws2go true s).head? = some c → isSpTab c = false := by
  intro s
  induction s with
  | nil => intro c h; cases h
  | cons a rest ih =>
    intro c h
    by_cases ha : isSpTab a = true
    · exact ih (by simpa [ws2go, ha] using h)
    · by_cases hn : a = '\n'
      · simp only [ws2go, ha, Bool.and_false, Bool.false_eq_true, if_false,
          if_pos hn, List.head?_cons] at h
        cases h
        decide
      · simp only [ws2go, ha, Bool.and_false, Bool.false_eq_true, if_false,
          if_neg hn, List.head?_cons] at h
        cases h
        simpa using ha

theorem ws2go_false_head (s : Str) : (ws2go false s).head? = s.head? := by
  cases s with
  | nil => rfl
  | cons a rest =>
    by_cases hn : a = '\n'
    · simp [ws2go, hn]
    · simp [ws2go, hn]

theorem ws2_noTab : ∀ (b : Bool) (s : Str), '\t' ∉ s → '\t' ∉ ws2go b s := by
  intro b s
  induction s generalizing b with
  | nil => intro _; simp [ws2go]
  | cons a rest ih =>
    intro hT
    have hTr : '\t' ∉ rest := fun hm => hT (List.mem_cons_of_mem a hm)
    by_cases hsk : (b && isSpTab a) = true
    · simpa [ws2go, hsk] using ih true hTr
    · by_cases hn : a = '\n'
      · simp only [ws2go, hsk, Bool.false_eq_true, if_false, if_pos hn,
          List.mem_cons]
        rintro (h | h)
        · cases h
        · exact ih true hTr h
      · simp only [ws2go, hsk, Bool.false_eq_true, if_false, if_neg hn,
          List.mem_cons]
        rintro (h | h)
        · exact hT (h ▸ List.mem_cons_self a rest)
        · exact ih false hTr h

theorem ws2_bSS : ∀ (b : Bool) (s : Str), pairsOk bSS s = true →
    pairsOk bSS (ws2go b s) = true := by
  intro b s
  induction s generalizing b with
  | nil => intro _; simp [ws2go, pairsOk]
  | cons a rest ih =>
    intro hSS
    by_cases hsk : (b && isSpTab a) = true
    · simpa [ws2go, hsk] using ih true (pairsOk_tail hSS)
    · by_cases hn : a = '\n'
      · simp only [ws2go, hsk, Bool.false_eq_true, if_false, if_pos hn]
        refine (pairsOk_cons_iff _ _ _).mpr ⟨?_, ih true (pairsOk_tail hSS)⟩
        intro y _
        simp [bSS, isSpTab]
      · simp only [ws2go, hsk, Bool.false_eq_true, if_false, if_neg hn]
        refine (pairsOk_cons_iff _ _ _).mpr ⟨?_, ih false (pairsOk_tail hSS)⟩
        intro y hy
        rw [ws2go_false_head] at hy
        exact ((pairsOk_cons_iff bSS a rest).mp hSS).1 y hy

theorem ws2_bNlSp : ∀ (b : Bool) (s : Str), pairsOk bNlSp (ws2go b s) = true := by
  intro b s
  induction s generalizing b with
  | nil => simp [ws2go, pairsOk]
  | cons a rest ih =>
    by_cases hsk : (b && isSpTab a) = true
    · simpa [ws2go, hsk] using ih true
    · by_cases hn : a = '\n'
      · simp only [ws2go, hsk, Bool.false_eq_true, if_false, if_pos hn]
        refine (pairsOk_cons_iff _ _ _).mpr ⟨?_, ih true⟩
        intro y hy
        simp [bNlSp, ws2go_true_head hy]
      · simp only [ws2go, hsk, Bool.false_eq_true, if_false, if_neg hn]
        refine (pairsOk_cons_iff _ _ _).mpr ⟨?_, ih false⟩
        intro y _
        simp [bNlSp, hn]

theorem ws2go_id : ∀ (b : Bool) (s : Str), pairsOk bNlSp s = true →
    (b = true → ∀ d, s.head? = some d → isSpTab d = false) → ws2go b s = s := by
  intro b s
  induction s generalizing b with
  | nil => intro _ _; cases b <;> rfl
  | cons a rest ih =>
    intro hNl hb
    have hsk : ¬((b && isSpTab a) = true) := by
      intro hc
      rcases (by simpa using hc : b = true ∧ isSpTab a = true) with ⟨hb1, ha1⟩
      exact absurd ha1 (by simpa using hb hb1 a rfl)
    by_cases hn : a = '\n'
    · simp only [ws2go, hsk, Bool.false_eq_true, if_false, if_pos hn]
      rw [hn]
      congr 1
      refine ih true (pairsOk_tail hNl) ?_
      intro _ d hd
      have := ((pairsOk_cons_iff bNlSp a rest).mp hNl).1 d hd
      simpa [bNlSp, hn] using this
    · simp only [ws2go, hsk, Bool.false_eq_true, if_false, if_neg hn]
      congr 1
      exact ih false (pairsOk_tail hNl) (by intro h; cases h)

/-! Stage 3 (`/[ \t]+\n/g → "\n"`). -/

theorem ws3go_nil_head {s : Str}
    (h : ∀ d, s.head? = some d → isSpTab d = false) :
    (ws3go [] s).head? = s.head? := by
  cases s with
  | nil => rfl
  | cons a rest =>
    have ha : ¬(isSpTab a = true) := by simp [h a rfl]
    by_cases hn : a = '\n'
    · subst hn
      have h1 : isSpTab '\n' = false := by decide
      simp [ws3go, h1]
    · simp [ws3go, ha, hn]

theorem ws3_pres : ∀ (s pend : Str),
    '\t' ∉ s → pairsOk bSS s = true → pairsOk bNlSp s = true →
    (pend = [] ∨ (pend = [' '] ∧ ∀ d, s.head? = some d → isSpTab d = false)) →
    ('\t' ∉ ws3go pend s ∧ pairsOk bSS (ws3go pend s) = true ∧
     pairsOk bNlSp (ws3go pend s) = true ∧ pairsOk bSpNl (ws3go pend s) = true) := by
  intro s
  induction s with
  | nil =>
    intro pend _ _ _ hp
    rcases hp with rfl | ⟨rfl, _⟩
    · simp [ws3go, pairsOk]
    · decide
  | cons a rest ih =>
    intro pend hT hSS hNl hp
    have hTr : '\t' ∉ rest := fun hm => hT (List.mem_cons_of_mem a hm)
    by_cases ha : isSpTab a = true
    · have hpe : pend = [] := by
        rcases hp with rfl | ⟨rfl, hhd⟩
        · rfl
        · exact absurd ha (by simp [hhd a rfl])
      subst hpe
      have haSp : a = ' ' := by
        rcases (by simpa [isSpTab] using ha : a = ' ' ∨ a = '\t') with h | h
        · exact h
        · exact absurd (h ▸ List.mem_cons_self a rest) hT
      simp only [ws3go, ha, if_true]
      refine ih [a] hTr (pairsOk_tail hSS) (pairsOk_tail hNl) (Or.inr ⟨?_, ?_⟩)
      · rw [haSp]
      · intro d hd
        have := ((pairsOk_cons_iff bSS a rest).mp hSS).1 d hd
        simpa [bSS, ha] using this
    · by_cases hn : a = '\n'
      · have hcont := ih [] hTr (pairsOk_tail hSS) (pairsOk_tail hNl) (Or.inl rfl)
        have hrh : ∀ d, rest.head? = some d → isSpTab d = false := by
          intro d hd
          have := ((pairsOk_cons_iff bNlSp a rest).mp hNl).1 d hd
          simpa [bNlSp, hn] using this
        have hhead := ws3go_nil_head hrh
        simp only [ws3go, ha, Bool.false_eq_true, if_false, if_pos hn]
        refine ⟨?_, ?_, ?_, ?_⟩
        · simp only [List.mem_cons]
          rintro (h | h)
          · cases h
          · exact hcont.1 h
        · refine (pairsOk_cons_iff _ _ _).mpr ⟨?_, hcont.2.1⟩
          intro y _
          simp [bSS, isSpTab]
        · refine (pairsOk_cons_iff _ _ _).mpr ⟨?_, hcont.2.2.1⟩
          intro y hy
          rw [hhead] at hy
          simp [bNlSp, hrh y hy]
        · refine (pairsOk_cons_iff _ _ _).mpr ⟨?_, hcont.2.2.2⟩
          intro y _
          simp [bSpNl, isSpTab]
      · have hcont := ih [] hTr (pairsOk_tail hSS) (pairsOk_tail hNl) (Or.inl rfl)
        have haT : a ≠ '\t' := fun h => hT (h ▸ List.mem_cons_self a rest)
        simp only [ws3go, ha, Bool.false_eq_true, if_false, if_neg hn]
        have hmain : '\t' ∉ a :: ws3go [] rest ∧
            pairsOk bSS (a :: ws3go [] rest) = true ∧
            pairsOk bNlSp (a :: ws3go [] rest) = true ∧
            pairsOk bSpNl (a :: ws3go [] rest) = true := by
          refine ⟨?_, ?_, ?_, ?_⟩
          · simp only [List.mem_cons]
            rintro (h | h)
            · exact haT h.symm
            · exact hcont.1 h
          · refine (pairsOk_cons_iff _ _ _).mpr ⟨?_, hcont.2.1⟩
            intro y _
            simp [bSS, ha]
          · refine (pairsOk_cons_iff _ _ _).mpr ⟨?_, hcont.2.2.1⟩
            intro y _
            simp [bNlSp, hn]
          · refine (pairsOk_cons_iff _ _ _).mpr ⟨?_, hcont.2.2.2⟩
            intro y _
            simp [bSpNl, ha]
        rcases hp with rfl | ⟨rfl, _⟩
        · simpa using hmain
        · simp only [List.reverse_cons, List.reverse_nil, List.nil_append,
            List.cons_append, List.nil_append]
          refine ⟨?_, ?_, ?_, ?_⟩
          · simp only [List.mem_cons]
            rintro (h | h | h)
            · cases h
            · exact haT h.symm
            · exact hcont.1 h
          · refine (pairsOk_cons_iff _ _ _).mpr ⟨?_, hmain.2.1⟩
            intro y hy
            have hya : a = y := by simpa using hy
            subst hya
            simp [bSS, ha]
          · refine (pairsOk_cons_iff _ _ _).mpr ⟨?_, hmain.2.2.1⟩
            intro y _
            simp [bNlSp]
          · refine (pairsOk_cons_iff _ _ _).mpr ⟨?_, hmain.2.2.2⟩
            intro y hy
            have hya : a = y := by simpa using hy
            subst hya
            simp [bSpNl, hn]

theorem ws3go_id : ∀ (s pend : Str), '\t' ∉ s → pairsOk bSS s = true →
    pairsOk bSpNl s = true →
    (pend = [] ∨ (pend = [' '] ∧
      ∀ d, s.head? = some d → isSpTab d = false ∧ d ≠ '\n')) →
    ws3go pend s = pend.reverse ++ s := by
  intro s
  induction s with
  | nil =>
    intro pend _ _ _ hp
    rcases hp with rfl | ⟨rfl, _⟩ <;> simp [ws3go]
  | cons a rest ih =>
    intro pend hT hSS hSpNl hp
    have hTr : '\t' ∉ rest := fun hm => hT (List.mem_cons_of_mem a hm)
    by_cases ha : isSpTab a = true
    · have hpe : pend = [] := by
        rcases hp with rfl | ⟨rfl, hhd⟩
        · rfl
        · exact absurd ha (by simp [(hhd a rfl).1])
      subst hpe
      have haSp : a = ' ' := by
        rcases (by simpa [isSpTab] using ha : a = ' ' ∨ a = '\t') with h | h
        · exact h
        · exact absurd (h ▸ List.mem_cons_self a rest) hT
      have hcond : ∀ d, rest.head? = some d → isSpTab d = false ∧ d ≠ '\n' := by
        intro d hd
        constructor
        · have := ((pairsOk_cons_iff bSS a rest).mp hSS).1 d hd
          simpa [bSS, ha] using this
        · have := ((pairsOk_cons_iff bSpNl a rest).mp hSpNl).1 d hd
          simpa [bSpNl, ha] using this
      simp only [ws3go, ha, if_true]
      rw [ih [a] hTr (pairsOk_tail hSS) (pairsOk_tail hSpNl)
        (Or.inr ⟨by rw [haSp], hcond⟩)]
      simp
    · by_cases hn : a = '\n'
      · have hpe : pend = [] := by
          rcases hp with rfl | ⟨rfl, hhd⟩
          · rfl
          · exact absurd hn (hhd a rfl).2
        subst hpe
        simp only [ws3go, ha, Bool.false_eq_true, if_false, if_pos hn,
          List.reverse_nil, List.nil_append]
        rw [hn]
        congr 1
        simpa using ih [] hTr (pairsOk_tail hSS) (pairsOk_tail hSpNl) (Or.inl rfl)
      · simp only [ws3go, ha, Bool.false_eq_true, if_false, if_neg hn]
        rw [show ws3go [] rest = rest by
          simpa using ih [] hTr (pairsOk_tail hSS) (pairsOk_tail hSpNl) (Or.inl rfl)]

/-! Stage 4 (`/\n{3,}/g → "\n\n"`). -/

theorem ws4go_pos_head : ∀ (s : Str) (n : Nat), (ws4go (n + 1) s).head? = some '\n' := by
  intro s
  induction s with
  | nil =>
    intro n
    show (List.replicate (min (n + 1) 2) '\n').head? = some '\n'
    rw [show min (n + 1) 2 = min n 1 + 1 from Nat.succ_min_succ n 1,
      List.replicate_succ]
    rfl
  | cons c rest ih =>
    intro n
    by_cases hn : c = '\n'
    · simpa [ws4go, hn] using ih (n + 1)
    · show (if c = '\n' then ws4go (n + 1 + 1) rest
        else List.replicate (min (n + 1) 2) '\n' ++ c :: ws4go 0 rest).head? = some '\n'
      rw [if_neg hn, show min (n + 1) 2 = min n 1 + 1 from Nat.succ_min_succ n 1,
        List.replicate_succ]
      rfl

theorem ws4go_zero_head (s : Str) : (ws4go 0 s).head? = s.head? := by
  cases s with
  | nil => rfl
  | cons c rest =>
    by_cases hn : c = '\n'
    · subst hn
      simpa [ws4go] using ws4go_pos_head rest 0
    · simp [ws4go, hn]

/-- All five predicates hold of a newline run of length at most two. -/
theorem nlRepl_ok : ∀ k, k ≤ 2 →
    ('\t' ∉ List.replicate k '\n' ∧ pairsOk bSS (List.replicate k '\n') = true ∧
     pairsOk bNlSp (List.replicate k '\n') = true ∧
     pairsOk bSpNl (List.replicate k '\n') = true ∧
     triplesOk bNl3 (List.replicate k '\n') = true) := by
  intro k hk
  match k, hk with
  | 0, _ => decide
  | 1, _ => decide
  | 2, _ => decide

theorem ws4_pres : ∀ (s : Str) (n : Nat),
    '\t' ∉ s → pairsOk bSS s = true → pairsOk bNlSp s = true →
    pairsOk bSpNl s = true →
    (1 ≤ n → ∀ d, s.head? = some d → isSpTab d = false) →
    ('\t' ∉ ws4go n s ∧ pairsOk bSS (ws4go n s) = true ∧
     pairsOk bNlSp (ws4go n s) = true ∧ pairsOk bSpNl (ws4go n s) = true ∧
     triplesOk bNl3 (ws4go n s) = true) := by
  intro s
  induction s with
  | nil =>
    intro n _ _ _ _ _
    exact nlRepl_ok (min n 2) (Nat.min_le_right n 2)
  | cons c rest ih =>
    intro n hT hSS hNl hSp hb
    have hTr : '\t' ∉ rest := fun hm => hT (List.mem_cons_of_mem c hm)
    by_cases hn : c = '\n'
    · simp only [ws4go, if_pos hn]
      refine ih (n + 1) hTr (pairsOk_tail hSS) (pairsOk_tail hNl)
        (pairsOk_tail hSp) ?_
      intro _ d hd
      have := ((pairsOk_cons_iff bNlSp c rest).mp hNl).1 d hd
      simpa [bNlSp, hn] using this
    · have hcont := ih 0 hTr (pairsOk_tail hSS) (pairsOk_tail hNl)
        (pairsOk_tail hSp) (by intro h; cases h)
      have hcT : c ≠ '\t' := fun h => hT (h ▸ List.mem_cons_self c rest)
      have hhd0 := ws4go_zero_head rest
      have hcc : '\t' ∉ c :: ws4go 0 rest ∧
          pairsOk bSS (c :: ws4go 0 rest) = true ∧
          pairsOk bNlSp (c :: ws4go 0 rest) = true ∧
          pairsOk bSpNl (c :: ws4go 0 rest) = true ∧
          triplesOk bNl3 (c :: ws4go 0 rest) = true := by
        refine ⟨?_, ?_, ?_, ?_, ?_⟩
        · simp only [List.mem_cons]
          rintro (h | h)
          · exact hcT h.symm
          · exact hcont.1 h
        · refine (pairsOk_cons_iff _ _ _).mpr ⟨?_, hcont.2.1⟩
          intro y hy
          rw [hhd0] at hy
          exact ((pairsOk_cons_iff bSS c rest).mp hSS).1 y hy
        · refine (pairsOk_cons_iff _ _ _).mpr ⟨?_, hcont.2.2.1⟩
          intro y _
          simp [bNlSp, hn]
        · refine (pairsOk_cons_iff _ _ _).mpr ⟨?_, hcont.2.2.2.1⟩
          intro y hy
          rw [hhd0] at hy
          exact ((pairsOk_cons_iff bSpNl c rest).mp hSp).1 y hy
        · refine (triplesOk_cons_iff _ _ _).mpr ⟨?_, hcont.2.2.2.2⟩
          intro y z _ _
          simp [bNl3, hn]
      simp only [ws4go, if_neg hn]
      rcases Nat.lt_or_ge n 1 with h1 | h1
      · have : min n 2 = 0 := by omega
        rw [this]
        simpa using hcc
      · have hcS : isSpTab c = false := hb h1 c rfl
        have hc1 : '\t' ∉ '\n' :: c :: ws4go 0 rest ∧
            pairsOk bSS ('\n' :: c :: ws4go 0 rest) = true ∧
            pairsOk bNlSp ('\n' :: c :: ws4go 0 rest) = true ∧
            pairsOk bSpNl ('\n' :: c :: ws4go 0 rest) = true ∧
            triplesOk bNl3 ('\n' :: c :: ws4go 0 rest) = true := by
          refine ⟨?_, ?_, ?_, ?_, ?_⟩
          · intro hmem
            rcases List.mem_cons.mp hmem with h | h
            · exact absurd h (by decide)
            · exact hcc.1 h
          · refine (pairsOk_cons_iff _ _ _).mpr ⟨?_, hcc.2.1⟩
            intro y _
            simp [bSS, isSpTab]
          · refine (pairsOk_cons_iff _ _ _).mpr ⟨?_, hcc.2.2.1⟩
            intro y hy
            have hyc : c = y := by simpa using hy
            simp [bNlSp, ← hyc, hcS]
          · refine (pairsOk_cons_iff _ _ _).mpr ⟨?_, hcc.2.2.2.1⟩
            intro y _
            simp [bSpNl, isSpTab]
          · refine (triplesOk_cons_iff _ _ _).mpr ⟨?_, hcc.2.2.2.2⟩
            intro y z hy _
            have hyc : c = y := by simpa using hy
            simp [bNl3, ← hyc, hn]
        rcases Nat.lt_or_ge n 2 with h2 | h2
        · have hmin : min n 2 = 1 := by omega
          rw [hmin]
          exact hc1
        · have hmin : min n 2 = 2 := by omega
          rw [hmin]
          show '\t' ∉ '\n' :: '\n' :: c :: ws4go 0 rest ∧
            pairsOk bSS ('\n' :: '\n' :: c :: ws4go 0 rest) = true ∧
            pairsOk bNlSp ('\n' :: '\n' :: c :: ws4go 0 rest) = true ∧
            pairsOk bSpNl ('\n' :: '\n' :: c :: ws4go 0 rest) = true ∧
            triplesOk bNl3 ('\n' :: '\n' :: c :: ws4go 0 rest) = true
          refine ⟨?_, ?_, ?_, ?_, ?_⟩
          · intro hmem
            rcases List.mem_cons.mp hmem with h | h
            · exact absurd h (by decide)
            · exact hc1.1 h
          · refine (pairsOk_cons_iff _ _ _).mpr ⟨?_, hc1.2.1⟩
            intro y _
            simp [bSS, isSpTab]
          · refine (pairsOk_cons_iff _ _ _).mpr ⟨?_, hc1.2.2.1⟩
            intro y hy
            have hyc : '\n' = y := by simpa using hy
            simp [bNlSp, ← hyc, isSpTab]
          · refine (pairsOk_cons_iff _ _ _).mpr ⟨?_, hc1.2.2.2.1⟩
            intro y _
            simp [bSpNl, isSpTab]
          · refine (triplesOk_cons_iff _ _ _).mpr ⟨?_, hc1.2.2.2.2⟩
            intro y z hy hz
            have hy2 : '\n' = y := by simpa using hy
            have hz2 : c = z := by simpa using hz
            simp [bNl3, ← hy2, ← hz2, hn]

/-- The length of the leading newline run of a `bNl3`-free string. -/
theorem leadNl_le : ∀ {l : Str}, triplesOk bNl3 l = true →
    (l.takeWhile fun c => c = '\n').length ≤ 2 := by
  intro l h
  match l with
  | [] => simp
  | a :: l1 =>
    by_cases ha : a = '\n'
    · subst ha
      match l1 with
      | [] => simp [List.takeWhile_cons]
      | b :: l2 =>
        by_cases hb : b = '\n'
        · subst hb
          match l2 with
          | [] => simp [List.takeWhile_cons]
          | c :: l3 =>
            by_cases hc : c = '\n'
            · subst hc
              exact absurd h (by simp [triplesOk, bNl3])
            · simp [List.takeWhile_cons, hc]
        · simp [List.takeWhile_cons, hb]
    · simp [List.takeWhile_cons, ha]

theorem ws4go_id : ∀ (s : Str) (n : Nat), triplesOk bNl3 s = true →
    n + (s.takeWhile fun c => c = '\n').length ≤ 2 →
    ws4go n s = List.replicate n '\n' ++ s := by
  intro s
  induction s with
  | nil =>
    intro n _ hbound
    show List.replicate (min n 2) '\n' = List.replicate n '\n' ++ []
    rw [List.append_nil, Nat.min_eq_left (by simpa using hbound)]
  | cons c rest ih =>
    intro n hTr hbound
    by_cases hn : c = '\n'
    · subst hn
      rw [List.takeWhile_cons] at hbound
      simp only [ws4go, if_pos rfl]
      rw [ih (n + 1) (triplesOk_tail hTr) (by simp at hbound ⊢; omega)]
      rw [show List.replicate (n + 1) '\n' = List.replicate n '\n' ++ ['\n']
        from List.replicate_succ' n '\n']
      simp
    · have hb2 : n ≤ 2 := by omega
      simp only [ws4go, if_neg hn]
      rw [Nat.min_eq_left hb2]
      rw [ih 0 (triplesOk_tail hTr) (by simpa using leadNl_le (triplesOk_tail hTr))]
      simp

/-! The whitespace pipeline: every output is in normal form, and the
pipeline is the identity on normal forms. -/

theorem wsClean_normal (y : Str) : wsNormal (wsClean y) := by
  have h1T := ws1_noTab false y
  have h1S := ws1_bSS false y
  have h2T := ws2_noTab false (ws1go false y) h1T
  have h2S := ws2_bSS false (ws1go false y) h1S
  have h2N := ws2_bNlSp false (ws1go false y)
  have h3 := ws3_pres (ws2go false (ws1go false y)) [] h2T h2S h2N (Or.inl rfl)
  have h4 := ws4_pres (ws3go [] (ws2go false (ws1go false y))) 0
    h3.1 h3.2.1 h3.2.2.1 h3.2.2.2 (by intro h; exact absurd h (by omega))
  show wsNormal (jsTrim (ws4go 0 (ws3go [] (ws2go false (ws1go false y)))))
  refine ⟨?_, ?_, ?_, ?_, ?_, ?_, ?_⟩
  · intro hmem
    exact h4.1 (mem_of_trimL (mem_of_trimR hmem))
  · exact pairsOk_trimR (pairsOk_trimL h4.2.1)
  · exact pairsOk_trimR (pairsOk_trimL h4.2.2.1)
  · exact pairsOk_trimR (pairsOk_trimL h4.2.2.2.1)
  · exact triplesOk_trimR (triplesOk_trimL h4.2.2.2.2)
  · exact fun c hc => head_of_jsTrim hc
  · exact fun c hc => getLast_of_jsTrim hc

theorem wsClean_id {s : Str} (h : wsNormal s) : wsClean s = s := by
  obtain ⟨hT, hSS, hNl, hSp, h3, hhd, hlast⟩ := h
  show jsTrim (wsStage4 (wsStage3 (wsStage2 (wsStage1 s)))) = s
  rw [show wsStage1 s = s from ws1go_id false s hT hSS (by intro h; cases h)]
  rw [show wsStage2 s = s from ws2go_id false s hNl (by intro h; cases h)]
  rw [show wsStage3 s = s by
    simpa using ws3go_id s [] hT hSS hSp (Or.inl rfl)]
  rw [show wsStage4 s = s by
    simpa using ws4go_id s 0 h3 (by simpa using leadNl_le h3)]
  exact jsTrim_id hhd hlast

/-! ## Claim C4: idempotence of the flatten-to-text normalizer -/

/-- C4 (counterexample): the flatten-to-text normalizer is not idempotent
as claimed: on `"&amp;amp;"` one application yields `"&amp;"` and a second
application decodes the freshly produced entity to `"&"`. -/
theorem htmlToText_not_idempotent :
    htmlToText "&amp;amp;".data = "&amp;".data ∧
    htmlToText (htmlToText "&amp;amp;".data) = ['&'] ∧
    htmlToText (htmlToText "&amp;amp;".data) ≠ htmlToText "&amp;amp;".data := by
  refine ⟨by decide, by decide, by decide⟩

/-- C4 (amended): the normalizer is idempotent on every input whose
normalized form contains neither `&` nor `<` (re-decoding of entities and
re-stripping of tag-like text are the only sources of non-idempotence; in
particular no further whitespace collapse ever happens on a second
application). -/
theorem htmlToText_idem_of_clean (x : Str)
    (h1 : '<' ∉ htmlToText x) (h2 : '&' ∉ htmlToText x) :
    htmlToText (htmlToText x) = htmlToText x := by
  show wsClean (ents12 (tagStagesFull (htmlToText x))) = htmlToText x
  rw [tagStagesFull_id h1, ents12_id h2]
  exact wsClean_id (wsClean_normal (ents12 (tagStagesFull x)))

/-- C4 (witness): the amended idempotence applied at a concrete input. -/
theorem htmlToText_idem_witness :
    '<' ∉ htmlToText "<p> Hello \t brave  world </p>".data ∧
    '&' ∉ htmlToText "<p> Hello \t brave  world </p>".data ∧
    htmlToText (htmlToText "<p> Hello \t brave  world </p>".data) =
      htmlToText "<p> Hello \t brave  world </p>".data := by
  refine ⟨by decide, by decide,
    htmlToText_idem_of_clean _ (by decide) (by decide)⟩

/-! ## Claims C1, C2, C10: the enhanced content pipeline -/

theorem processChaptersSeq_chapters_len (z : Zip) (md : MetaM)
    (manifest : Manifest) (toc : List TocEntry) :
    ∀ (l : List Str) (accCh : List ChapterM) (accFn : Fns) (accPb : List Nat),
      (processChaptersSeq z md manifest toc l accCh accFn accPb).chapters.length ≤
        accCh.length + l.length := by
  intro l
  induction l with
  | nil => intro accCh accFn accPb; simp [processChaptersSeq]
  | cons id rest ih =>
    intro accCh accFn accPb
    simp only [processChaptersSeq, List.length_cons]
    split
    · have := ih accCh accFn accPb
      omega
    · rename_i filePath hml
      split
      · have := ih accCh accFn accPb
        omega
      · rename_i fileContent hzr
        have := ih (accCh ++ [(parseHTMLToStructuredContent fileContent id filePath).1])
          (mergeFns accFn (parseHTMLToStructuredContent fileContent id filePath).2) accPb
        simp only [List.length_append, List.length_singleton] at this
        omega

theorem processChaptersSeq_pageBreaks (z : Zip) (md : MetaM)
    (manifest : Manifest) (toc : List TocEntry) :
    ∀ (l : List Str) (accCh : List ChapterM) (accFn : Fns) (accPb : List Nat),
      (processChaptersSeq z md manifest toc l accCh accFn accPb).pageBreaks = accPb := by
  intro l
  induction l with
  | nil => intro accCh accFn accPb; simp [processChaptersSeq]
  | cons id rest ih =>
    intro accCh accFn accPb
    simp only [processChaptersSeq]
    split
    · exact ih accCh accFn accPb
    · split
      · exact ih accCh accFn accPb
      · exact ih _ _ accPb

/-- C1: whenever container and package document parse successfully, the
structured parse succeeds, and the chapter list is bounded by the minimum
of the spine length and the processing cap of 25: each chapter comes from
at most one of the first 25 spine ids. -/
theorem enhanced_parse_chapters_le (z : Zip) (md : MetaM) (man : Manifest)
    (spine : List Str) (tp : Option Str)
    (h : extractStructure z = .ok (md, man, spine, tp)) :
    parseEnhanced z =
      .ok (processEnhancedContent z md man spine (parseTableOfContents z md tp)) ∧
    (processEnhancedContent z md man spine
      (parseTableOfContents z md tp)).chapters.length ≤ min spine.length 25 := by
  constructor
  · unfold parseEnhanced
    rw [h]
  · rw [show processEnhancedContent z md man spine (parseTableOfContents z md tp) =
      (if (spine.take 25).length = 0 then
        ⟨md.title, md.author, [], parseTableOfContents z md tp, [], []⟩
      else processChaptersSeq z md man (parseTableOfContents z md tp)
        (spine.take 25) [] [] []) from rfl]
    split
    · simp
    · have := processChaptersSeq_chapters_len z md man
        (parseTableOfContents z md tp) (spine.take 25) [] [] []
      simp only [List.length_nil, Nat.zero_add, List.length_take] at this
      omega

/-- C10: in structured (enhanced) parsing mode the `pageBreaks` field of
the result is always the empty list, whatever the archive, metadata,
manifest, spine and TOC are: the accumulator starts empty and no code path
appends to it. -/
theorem enhanced_pageBreaks_always_empty (z : Zip) (md : MetaM)
    (man : Manifest) (spine : List Str) (toc : List TocEntry) :
    (processEnhancedContent z md man spine toc).pageBreaks = [] := by
  rw [show processEnhancedContent z md man spine toc =
      (if (spine.take 25).length = 0 then ⟨md.title, md.author, [], toc, [], []⟩
      else processChaptersSeq z md man toc (spine.take 25) [] [] []) from rfl]
  split
  · rfl
  · exact processChaptersSeq_pageBreaks z md man toc (spine.take 25) [] [] []

/-- C2: a spine item whose id has no manifest entry, or whose content
document is absent, is skipped and processing continues with the next
item: the result (chapters of every other spine item, footnotes, page
breaks, everything) is exactly that of the spine without the item, and the
parse still succeeds (the function is total). -/
theorem processChaptersSeq_skips_bad_item (z : Zip) (md : MetaM)
    (manifest : Manifest) (toc : List TocEntry) (id : Str)
    (hskip : ∀ p, manifestLookup manifest id = some p →
      zipRead z (md.opfDir ++ p) = none) :
    ∀ (pre post : List Str) (accCh : List ChapterM) (accFn : Fns) (accPb : List Nat),
      processChaptersSeq z md manifest toc (pre ++ id :: post) accCh accFn accPb =
      processChaptersSeq z md manifest toc (pre ++ post) accCh accFn accPb := by
  intro pre
  induction pre with
  | nil =>
    intro post accCh accFn accPb
    simp only [List.nil_append, processChaptersSeq]
    split
    · rfl
    · rename_i p hml
      rw [hskip p hml]
  | cons a pre ih =>
    intro post accCh accFn accPb
    simp only [List.cons_append, processChaptersSeq]
    split
    · exact ih post accCh accFn accPb
    · split
      · exact ih post accCh accFn accPb
      · exact ih post _ _ accPb

/-- C1 (witness): the success-and-bound conclusion at a concrete
well-formed archive. -/
theorem enhanced_parse_chapters_le_witness :
    parseEnhanced exC1zip =
      .ok (processEnhancedContent exC1zip
        ⟨"Unknown Title".data, "Unknown Author".data, []⟩
        [("ch1".data, "c1.html".data)] ["ch1".data]
        (parseTableOfContents exC1zip
          ⟨"Unknown Title".data, "Unknown Author".data, []⟩ none)) ∧
    (processEnhancedContent exC1zip
      ⟨"Unknown Title".data, "Unknown Author".data, []⟩
      [("ch1".data, "c1.html".data)] ["ch1".data]
      (parseTableOfContents exC1zip
        ⟨"Unknown Title".data, "Unknown Author".data, []⟩ none)).chapters.length ≤
      min ["ch1".data].length 25 :=
  enhanced_parse_chapters_le exC1zip _ _ _ _ (by decide)

/-! ## Claim C7: TOC format symmetry -/

/-- C7: an NCX document and an XHTML-nav document that encode the same
flat three-entry outline (titles `A`,`B`,`C`, hrefs `a.html`,`b.html`,
`c.html`, with `#fragments` on some of them) are parsed to the same entry
list, in document order, `level` 1 everywhere and fragments stripped. -/
theorem tocParsing_format_symmetric :
    parseTocContent ncxDocEx = tocExpectedEx ∧
    parseTocContent navDocEx = tocExpectedEx := ⟨by decide, by decide⟩

/-! ## Claim C6: which qualifying manifest item sets the TOC path -/

/-- C6 (counterexample): in a package document whose manifest has two
items that both qualify as the TOC (both carry the NCX media type), the
recorded TOC path is the SECOND one — a later qualifying item replaces an
earlier one, contrary to the first-match-wins claim. -/
theorem tocPath_not_first_match :
    (extractManifestAndToc opfTwoTocEx).2 = some "second.ncx".data ∧
    findAll mItemTag opfTwoTocEx = [itemFirstEx, itemSecondEx] ∧
    (scanManifestTags [itemFirstEx]).2 = some "first.ncx".data ∧
    some "second.ncx".data ≠ some "first.ncx".data :=
  ⟨by decide, by decide, by decide, by decide⟩

/-- C6 (amended): during manifest scanning the LAST qualifying item in
document order sets the TOC path (an item qualifies when it has id and
href, a media-type attribute, and either the NCX media type or `toc` in
its lower-cased id or href). -/
theorem scanManifestTags_last_wins (tags : List Str) (tag i h mt : Str)
    (hid : findFirst (mAttrVal "id=".data) tag = some i)
    (hhref : findFirst (mAttrVal "href=".data) tag = some h)
    (hmt : findFirst (mAttrVal "media-type=".data) tag = some mt)
    (hq : mt = "application/x-dtbncx+xml".data ∨
      hasSub "toc".data (lowerStr i) ∨ hasSub "toc".data (lowerStr h)) :
    (scanManifestTags (tags ++ [tag])).2 = some h := by
  unfold scanManifestTags
  rw [List.foldl_append]
  simp only [List.foldl_cons, List.foldl_nil]
  rw [hid, hhref, hmt]
  simp only [if_pos hq]

/-- C6 (witness): the last-wins equation at the two concrete items. -/
theorem scanManifestTags_last_wins_witness :
    (scanManifestTags ([itemFirstEx] ++ [itemSecondEx])).2 = some "second.ncx".data :=
  scanManifestTags_last_wins [itemFirstEx] itemSecondEx
    "b".data "second.ncx".data "application/x-dtbncx+xml".data
    (by decide) (by decide) (by decide) (Or.inl rfl)

/-! ## Claim C5: the fallback file selection -/

theorem strLt_asymm : ∀ a b : Str, strLt a b = true → strLt b a = false := by
  intro a
  induction a with
  | nil =>
    intro b h
    cases b with
    | nil => simp [strLt] at h
    | cons c cs => rfl
  | cons x xs ih =>
    intro b h
    cases b with
    | nil => simp [strLt] at h
    | cons y ys =>
      simp only [strLt] at h ⊢
      rcases Nat.lt_trichotomy x.toNat y.toNat with hlt | heq | hgt
      · rw [if_neg (by omega), if_pos hlt]
      · rw [if_neg (by omega), if_neg (by omega)] at h ⊢
        exact ih ys h
      · rw [if_neg (by omega), if_pos hgt] at h
        cases h

theorem mem_insertSorted (x : Str) :
    ∀ (l : List Str) (a : Str), a ∈ insertSorted x l ↔ a = x ∨ a ∈ l := by
  intro l
  induction l with
  | nil => intro a; simp [insertSorted]
  | cons y ys ih =>
    intro a
    simp only [insertSorted]
    split
    · rw [List.mem_cons, ih a, List.mem_cons]
      tauto
    · simp only [List.mem_cons]

theorem mem_sortJs : ∀ (l : List Str) (a : Str), a ∈ sortJs l ↔ a ∈ l := by
  intro l
  induction l with
  | nil => intro a; simp [sortJs]
  | cons y ys ih =>
    intro a
    show a ∈ insertSorted y (sortJs ys) ↔ _
    rw [mem_insertSorted, ih a, List.mem_cons]

theorem length_insertSorted (x : Str) :
    ∀ l : List Str, (insertSorted x l).length = l.length + 1 := by
  intro l
  induction l with
  | nil => rfl
  | cons y ys ih =>
    simp only [insertSorted]
    split
    · simp [ih]
    · simp

theorem length_sortJs : ∀ l : List Str, (sortJs l).length = l.length := by
  intro l
  induction l with
  | nil => rfl
  | cons y ys ih =>
    show (insertSorted y (sortJs ys)).length = ys.length + 1
    rw [length_insertSorted, ih]

theorem sortedJs_cons_iff (x : Str) (l : List Str) :
    sortedJs (x :: l) = true ↔
      (∀ y, l.head? = some y → strLt y x = false) ∧ sortedJs l = true := by
  cases l with
  | nil => simp [sortedJs]
  | cons b rest =>
    simp only [sortedJs, Bool.and_eq_true, Bool.not_eq_true', List.head?_cons]
    constructor
    · rintro ⟨h1, h2⟩
      exact ⟨fun y hy => by cases hy; exact h1, h2⟩
    · rintro ⟨h1, h2⟩
      exact ⟨h1 b rfl, h2⟩

theorem head_insertSorted (x : Str) (l : List Str) :
    (insertSorted x l).head? = some x ∨ (insertSorted x l).head? = l.head? := by
  cases l with
  | nil => left; rfl
  | cons y ys =>
    simp only [insertSorted]
    split
    · right; rfl
    · left; rfl

theorem sorted_insertSorted (x : Str) :
    ∀ l : List Str, sortedJs l = true → sortedJs (insertSorted x l) = true := by
  intro l
  induction l with
  | nil => intro _; rfl
  | cons y ys ih =>
    intro hs
    have hys := ((sortedJs_cons_iff y ys).mp hs).2
    simp only [insertSorted]
    split
    · refine (sortedJs_cons_iff _ _).mpr ⟨?_, ih hys⟩
      intro z hz
      rcases head_insertSorted x ys with hh | hh
      · rw [hh] at hz
        cases hz
        next hyx => exact strLt_asymm _ _ hyx
      · rw [hh] at hz
        exact ((sortedJs_cons_iff y ys).mp hs).1 z hz
    · refine (sortedJs_cons_iff _ _).mpr ⟨?_, hs⟩
      intro z hz
      cases hz
      next hno => simpa using hno

theorem sorted_sortJs : ∀ l : List Str, sortedJs (sortJs l) = true := by
  intro l
  induction l with
  | nil => rfl
  | cons y ys ih => exact sorted_insertSorted y (sortJs ys) ih

theorem head_of_take : ∀ (l : List Str) (n : Nat) (y : Str),
    (l.take n).head? = some y → l.head? = some y := by
  intro l n y h
  cases l with
  | nil => simp at h
  | cons a as =>
    cases n with
    | zero => cases h
    | succ m => simpa using h

theorem sortedJs_take : ∀ (l : List Str) (n : Nat), sortedJs l = true →
    sortedJs (l.take n) = true := by
  intro l
  induction l with
  | nil => intro n _; simp [sortedJs]
  | cons a as ih =>
    intro n hs
    cases n with
    | zero => rfl
    | succ m =>
      rw [List.take_succ_cons]
      refine (sortedJs_cons_iff _ _).mpr
        ⟨?_, ih m ((sortedJs_cons_iff a as).mp hs).2⟩
      intro y hy
      exact ((sortedJs_cons_iff a as).mp hs).1 y (head_of_take as m y hy)

theorem take_all_of_le : ∀ (l : List Str) (n : Nat), l.length ≤ n → l.take n = l := by
  intro l
  induction l with
  | nil => intro n _; simp
  | cons a as ih =>
    intro n h
    cases n with
    | zero => simp at h
    | succ m =>
      rw [List.take_succ_cons, ih m (by simpa using h)]

/-- C5 (counterexample): the fallback selection is NOT the claim's
case-insensitive one: `Cover.html` contains `cover` only case-insensitively,
so the code keeps it (and sorts it first, capital before lower-case) while
the claim's rule drops it. -/
theorem fallback_selection_not_case_insensitive :
    fallbackFilesA fallbackNamesEx =
      ["Cover.html".data, "ch1.html".data, "ch2.html".data, "ch3.html".data] ∧
    claimFallbackSelection fallbackNamesEx =
      ["ch1.html".data, "ch2.html".data, "ch3.html".data] ∧
    fallbackFilesA fallbackNamesEx ≠ claimFallbackSelection fallbackNamesEx :=
  ⟨by decide, by decide, by decide⟩

/-- C5 (amended): the entries processed by fallback scanning are exactly
those with an HTML/XHTML extension (case-insensitive) that do not START
with `__MACOSX` and do not contain `jacket`, `cover` or `titlepage` as
CASE-SENSITIVE substrings, in code-unit sorted order, capped at 15 (the
simple parser; the service uses 10): every selected entry qualifies, the
selection is sorted and at most 15 long, and when at most 15 entries
qualify every qualifying entry is selected. -/
theorem fallbackFiles_characterization (names : List Str) :
    (∀ f ∈ fallbackFilesA names, f ∈ names ∧
      (hasSufCI ".html".data f || hasSufCI ".xhtml".data f ||
        hasSufCI ".htm".data f) = true ∧
      hasPref "__MACOSX".data f = false ∧ hasSub "jacket".data f = false ∧
      hasSub "cover".data f = false ∧ hasSub "titlepage".data f = false) ∧
    sortedJs (fallbackFilesA names) = true ∧
    (fallbackFilesA names).length ≤ 15 ∧
    ((names.filter fallbackPred).length ≤ 15 →
      ∀ f ∈ names, fallbackPred f = true → f ∈ fallbackFilesA names) := by
  refine ⟨?_, ?_, ?_, ?_⟩
  · intro f hf
    have hmem : f ∈ sortJs (names.filter fallbackPred) := List.mem_of_mem_take hf
    have hmem2 : f ∈ names.filter fallbackPred := (mem_sortJs _ f).mp hmem
    have hp := List.of_mem_filter hmem2
    have hn := List.mem_of_mem_filter hmem2
    simp only [fallbackPred, htmlExtTest, Bool.and_eq_true,
      Bool.not_eq_true'] at hp
    exact ⟨hn, hp.1.1.1.1, hp.1.1.1.2, hp.1.1.2, hp.1.2, hp.2⟩
  · exact sortedJs_take _ 15 (sorted_sortJs _)
  · exact List.length_take_le _ _
  · intro hlen f hf hpred
    have hmem : f ∈ names.filter fallbackPred := List.mem_filter.mpr ⟨hf, hpred⟩
    have hmem2 : f ∈ sortJs (names.filter fallbackPred) := (mem_sortJs _ f).mpr hmem
    unfold fallbackFilesA
    rw [take_all_of_le _ 15 (by rw [length_sortJs]; exact hlen)]
    exact hmem2

/-- C5 (witness): the characterization applied at the concrete archive of
the counterexample — in particular, with an empty spine and three
qualifying chapter files plus `cover.html`, all three chapters are
selected. -/
theorem fallbackFiles_characterization_witness :
    "ch1.html".data ∈ fallbackFilesA fallbackNamesEx :=
  (fallbackFiles_characterization fallbackNamesEx).2.2.2 (by decide)
    "ch1.html".data (by decide) (by decide)

/-- C2 (witness): the skip equation applied at a concrete archive in which
the middle spine id resolves to a manifest href whose file is absent. -/
theorem processChaptersSeq_skip_witness :
    processChaptersSeq [("a.html".data, "<p>Hi</p>".data)]
      ⟨"T".data, "A".data, []⟩ [("a".data, "a.html".data), ("x".data, "missing.html".data)] []
      (["a".data] ++ "x".data :: ["a".data]) [] [] [] =
    processChaptersSeq [("a.html".data, "<p>Hi</p>".data)]
      ⟨"T".data, "A".data, []⟩ [("a".data, "a.html".data), ("x".data, "missing.html".data)] []
      (["a".data] ++ ["a".data]) [] [] [] := by
  exact processChaptersSeq_skips_bad_item _ _ _ _ _
    (fun p hp => by
      have : p = "missing.html".data := by
        have := hp
        simp [manifestLookup, List.find?] at this
        exact this.symm
      subst this
      rfl)
    ["a".data] ["a".data] [] [] []

/-! ## Claim C9: whitespace-only elements -/

/-- C9: the final filter does guarantee that every emitted element has
non-empty trimmed content; but the failing input `<p>   </p>` does NOT
contribute zero elements as claimed — JavaScript `split` with a capturing
group splices the captured tag name `p` into the parts array, where the
text-accumulation loop turns it into two `paragraph` elements with content
`"p"`. -/
theorem parseHTMLElements_ws_only_input :
    parseHTMLElements "<p>   </p>".data =
      [⟨.paragraph, none, ['p']⟩, ⟨.paragraph, none, ['p']⟩] ∧
    parseHTMLElements "<p>   </p>".data ≠ [] ∧
    (∀ html : Str, ∀ e ∈ parseHTMLElements html, jsTrim e.content ≠ []) := by
  refine ⟨by decide, by decide, ?_⟩
  intro html e he
  simp only [parseHTMLElements] at he
  have := List.of_mem_filter he
  simpa using this

/-- C9 (witness): the invariant conjunct applied at a concrete document
and element. -/
theorem parseHTMLElements_ws_only_witness :
    jsTrim (⟨.paragraph, none, "p ab".data⟩ : PElem).content ≠ [] :=
  parseHTMLElements_ws_only_input.2.2 "<p>ab</p>".data _ (by decide)

/-! ## Occurrence lemmas (for the truncation notices) -/

theorem occursIn_append_right {p t : Str} (s : Str) (h : occursIn p t) :
    occursIn p (s ++ t) := by
  obtain ⟨u, v, rfl⟩ := h
  exact ⟨s ++ u, v, by simp⟩

theorem occursIn_append_left {p s : Str} (t : Str) (h : occursIn p s) :
    occursIn p (s ++ t) := by
  obtain ⟨u, v, rfl⟩ := h
  exact ⟨u, v ++ t, by simp⟩

theorem occursIn_reverse {p s : Str} (h : occursIn p s) :
    occursIn p.reverse s.reverse := by
  obtain ⟨u, v, rfl⟩ := h
  exact ⟨v.reverse, u.reverse, by simp⟩

theorem occursIn_dropWhile {q : Char → Bool} {p : Str} {c0 : Char}
    (hp : p.head? = some c0) (hc : q c0 = false) :
    ∀ {s : Str}, occursIn p s → occursIn p (s.dropWhile q) := by
  intro s h
  obtain ⟨u, v, rfl⟩ := h
  induction u with
  | nil =>
    cases p with
    | nil => cases hp
    | cons a p' =>
      cases hp
      simp only [List.nil_append, List.cons_append, List.dropWhile_cons, hc,
        Bool.false_eq_true, if_false]
      exact ⟨[], v, rfl⟩
  | cons b u' ih =>
    rw [List.cons_append, List.cons_append, List.dropWhile_cons]
    split
    · exact ih
    · exact ⟨b :: u', v, by simp⟩

theorem occursIn_jsTrim {p s : Str} {c0 c1 : Char}
    (hp0 : p.head? = some c0) (hc0 : wsJs c0 = false)
    (hp1 : p.getLast? = some c1) (hc1 : wsJs c1 = false)
    (h : occursIn p s) : occursIn p (jsTrim s) := by
  have h1 : occursIn p (trimL s) := occursIn_dropWhile hp0 hc0 h
  have h2 : occursIn p.reverse (trimL s).reverse := occursIn_reverse h1
  have h3 : occursIn p.reverse ((trimL s).reverse.dropWhile wsJs) := by
    refine occursIn_dropWhile ?_ hc1 h2
    rw [List.head?_reverse]
    exact hp1
  have h4 := occursIn_reverse h3
  rwa [List.reverse_reverse] at h4

theorem occursIn_ne_nil {p s : Str} (hp : p ≠ []) (h : occursIn p s) : s ≠ [] := by
  obtain ⟨u, v, rfl⟩ := h
  intro hnil
  rcases List.append_eq_nil.mp hnil with ⟨h1, h2⟩
  exact hp (List.append_eq_nil.mp h1).2

/-! ## Claims C3 and C8: truncation notices and the no-content error -/

/-- The spine loop appends nothing when every readable item converts to at
most 10 characters. -/
theorem spinePhase_no_add (z : Zip) (opfDir : Str) (man : Manifest) :
    ∀ (l : List Str) (acc : Str),
      (∀ id ∈ l, ∀ p, manifestLookup man id = some p →
        ∀ c, zipRead z (opfDir ++ p) = some c → (spineConvert c).length ≤ 10) →
      spinePhase z opfDir man l acc = acc := by
  intro l
  induction l with
  | nil => intro acc _; rfl
  | cons id rest ih =>
    intro acc hl
    have hrest := fun i hi => hl i (List.mem_cons_of_mem id hi)
    simp only [spinePhase]
    split
    · exact ih acc hrest
    · rename_i p hml
      split
      · exact ih acc hrest
      · rename_i c hzr
        rw [if_neg (by
          have := hl id (List.mem_cons_self id rest) p hml c hzr
          omega)]
        exact ih acc hrest

/-- The fallback loop appends nothing when every readable file converts to
at most 10 characters. -/
theorem fallbackPhase_no_add (z : Zip) :
    ∀ (l : List Str) (acc : Str),
      (∀ f ∈ l, ∀ c, zipRead z f = some c → (fallbackConvert c).length ≤ 10) →
      fallbackPhase z l acc = acc := by
  intro l
  induction l with
  | nil => intro acc _; rfl
  | cons f rest ih =>
    intro acc hl
    have hrest := fun g hg => hl g (List.mem_cons_of_mem f hg)
    simp only [fallbackPhase]
    split
    · exact ih acc hrest
    · rename_i c hzr
      rw [if_neg (by
        have := hl f (List.mem_cons_self f rest) c hzr
        omega)]
      exact ih acc hrest

/-- The fallback loop only ever appends to its accumulator. -/
theorem fallbackPhase_extends (z : Zip) :
    ∀ (l : List Str) (acc : Str), ∃ e, fallbackPhase z l acc = acc ++ e := by
  intro l
  induction l with
  | nil => intro acc; exact ⟨[], by simp [fallbackPhase]⟩
  | cons f rest ih =>
    intro acc
    simp only [fallbackPhase]
    split
    · exact ih acc
    · rename_i c hzr
      split
      · obtain ⟨e, he⟩ := ih (acc ++ fallbackConvert c ++ "\n\n".data)
        exact ⟨fallbackConvert c ++ "\n\n".data ++ e, by simpa [List.append_assoc] using he⟩
      · exact ih acc

/-- C3 (counterexample): with zero HTML-like entries after both the spine
phase (empty spine) and fallback scanning, the service parser does not
fail with a `NoReadableContent` error — it returns a successful
placeholder result. -/
theorem service_no_content_placeholder :
    processContentSvc [("a.txt".data, "hello".data)]
      ⟨"T".data, "A".data, []⟩ [] [] =
    ⟨"T".data, "A".data, "No readable content found in EPUB file".data⟩ := by
  decide

/-- C3 (amended): in the simple parser, when the spine is within its cap,
fewer than 15 entries qualify for fallback, and no spine item or fallback
entry yields readable content (more than 10 normalized characters), the
parse fails with the no-readable-content error carrying the archive entry
listing; the service parser instead returns successful placeholder
results. -/
theorem parseEPUB_no_readable_error (z : Zip) (opfDir : Str) (man : Manifest)
    (spineIds : List Str) (title author : Str)
    (hspine : spineIds.length ≤ 20)
    (hsp : ∀ id ∈ spineIds, ∀ p, manifestLookup man id = some p →
      ∀ c, zipRead z (opfDir ++ p) = some c → (spineConvert c).length ≤ 10)
    (hfb : ∀ f ∈ fallbackFilesA (z.map (·.1)), ∀ c, zipRead z f = some c →
      (fallbackConvert c).length ≤ 10)
    (hcap : (fallbackFilesA (z.map (·.1))).length < 15) :
    parseEPUBContentPhase z opfDir man spineIds title author =
      .error (noReadableMsg (z.map (·.1))) := by
  have h1 : spinePhase z opfDir man (spineIds.take 20) [] = [] :=
    spinePhase_no_add z opfDir man (spineIds.take 20) []
      (fun id hid => hsp id (List.mem_of_mem_take hid))
  have h2 : ¬(20 < spineIds.length) := by omega
  have h3 : fallbackPhase z (fallbackFilesA (z.map (·.1))) [] = [] :=
    fallbackPhase_no_add z (fallbackFilesA (z.map (·.1))) [] hfb
  have h4 : ¬((fallbackFilesA (z.map (·.1))).length = 15 ∧
      15 < ((z.map (·.1)).filter htmlExtTest).length) := by
    rintro ⟨h15, _⟩
    omega
  have h5 : (jsTrim ([] : Str)).length < 500 := by decide
  have h6 : jsTrim ([] : Str) = [] := rfl
  simp only [parseEPUBContentPhase]
  rw [h1, if_neg h2, if_pos h5, h3, if_neg h4, if_pos h6]

/-- C3 (witness): the amended error conclusion at a concrete archive with
one unresolvable spine id and one non-HTML entry. -/
theorem parseEPUB_no_readable_error_witness :
    parseEPUBContentPhase [("a.txt".data, "hello".data)] [] [] ["ch1".data]
      "T".data "A".data =
      .error (noReadableMsg ([("a.txt".data, "hello".data)].map (·.1))) ∧
    noReadableMsg ([("a.txt".data, "hello".data)].map (·.1)) =
      "No readable text content found in EPUB file. Files found: a.txt".data := by
  constructor
  · exact parseEPUB_no_readable_error [("a.txt".data, "hello".data)] [] []
      ["ch1".data] "T".data "A".data (by decide)
      (by
        intro id hid p hp c hc
        simp [manifestLookup, List.find?] at hp)
      (by
        intro f hf c hc
        rw [show fallbackFilesA ([("a.txt".data, "hello".data)].map (·.1)) = []
          from by decide] at hf
        cases hf)
      (by decide)
  · decide

/-- C8 (counterexample): the structured parser truncates silently: an
archive whose spine has 26 ids produces a result identical to that of the
same archive with only the first 25 spine ids — no field of the output
records that truncation happened. -/
theorem enhanced_truncation_silent :
    (List.replicate 26 "c".data).length = 26 ∧
    processEnhancedContent [] ⟨"T".data, "A".data, []⟩ []
      (List.replicate 26 "c".data) [] =
    processEnhancedContent [] ⟨"T".data, "A".data, []⟩ []
      (List.replicate 25 "c".data) [] := ⟨by decide, by decide⟩

/-- C8 (amended): the SIMPLE parser is never silent about truncation:
whenever the spine exceeds its cap of 20, the parse succeeds and the
returned content contains the explicit `[Content truncated` notice.  (The
structured parser, by contrast, truncates at 25 with no notice.) -/
theorem parseEPUB_truncation_notice (z : Zip) (opfDir : Str) (man : Manifest)
    (spineIds : List Str) (title author : Str)
    (h : 20 < spineIds.length) :
    ∃ content, parseEPUBContentPhase z opfDir man spineIds title author =
      .ok ⟨title, author, content⟩ ∧
      occursIn "[Content truncated".data content := by
  have hnotice : occursIn "[Content truncated".data (truncNoticeA spineIds.length) := by
    refine ⟨"\n\n".data,
      " - showing first 20 chapters of ".data ++ (Nat.repr spineIds.length).data ++
        " total chapters to improve performance]".data, ?_⟩
    show truncNoticeA spineIds.length = _
    rw [truncNoticeA]
    rw [show "\n\n[Content truncated - showing first 20 chapters of ".data =
      "\n\n".data ++ "[Content truncated".data ++
        " - showing first 20 chapters of ".data from by decide]
    simp [List.append_assoc]
  simp only [parseEPUBContentPhase]
  rw [if_pos h]
  set full2 := spinePhase z opfDir man (spineIds.take 20) [] ++
    truncNoticeA spineIds.length with hfull2
  have hocc2 : occursIn "[Content truncated".data full2 :=
    occursIn_append_right _ hnotice
  have hfull3 : ∃ full3, ((if (jsTrim full2).length < 500 then
      (if (fallbackFilesA (z.map (·.1))).length = 15 ∧
          15 < ((z.map (·.1)).filter htmlExtTest).length then
        fallbackPhase z (fallbackFilesA (z.map (·.1))) full2 ++
          "\n\n[Content truncated for performance - showing first 15 HTML files]".data
      else fallbackPhase z (fallbackFilesA (z.map (·.1))) full2)
    else full2) = full3) ∧ occursIn "[Content truncated".data full3 := by
    split
    · split
      · obtain ⟨e, he⟩ := fallbackPhase_extends z (fallbackFilesA (z.map (·.1))) full2
        refine ⟨_, rfl, ?_⟩
        rw [he, List.append_assoc]
        exact occursIn_append_left _ hocc2
      · obtain ⟨e, he⟩ := fallbackPhase_extends z (fallbackFilesA (z.map (·.1))) full2
        refine ⟨_, rfl, ?_⟩
        rw [he]
        exact occursIn_append_left _ hocc2
    · exact ⟨full2, rfl, hocc2⟩
  obtain ⟨full3, hf3, hocc3⟩ := hfull3
  rw [hf3]
  have htrim : occursIn "[Content truncated".data (jsTrim full3) :=
    occursIn_jsTrim rfl (by decide) rfl (by decide) hocc3
  rw [if_neg (occursIn_ne_nil (by decide) htrim)]
  exact ⟨jsTrim full3, rfl, htrim⟩

/-- C8 (witness): the truncation notice at a concrete archive with a
21-item spine none of whose items resolves. -/
theorem parseEPUB_truncation_notice_witness :
    ∃ content, parseEPUBContentPhase [] [] [] (List.replicate 21 "c".data)
      "T".data "A".data = .ok ⟨"T".data, "A".data, content⟩ ∧
      occursIn "[Content truncated".data content :=
  parseEPUB_truncation_notice [] [] [] (List.replicate 21 "c".data)
    "T".data "A".data (by decide)

end Epub
